import Mathlib

/-!
# Verification of the in-memory document store (memorydb)

Shallow embedding of the store's core: the document value model, the
ordered index multimap (modelling the AVL-backed `Index` of
`src/indexes`), and the collection facade `MemoryDB` with its
insert/update/remove rollback logic, candidate selection, TTL expiry
filter, cursor execution, and projection.

Documents are JSON-like values.  JavaScript numbers are modelled as
integers (the claims under study never depend on non-integral or IEEE
behaviour); timestamps are millisecond integers.  Pointer identity of
JavaScript objects is modelled by structural equality, which the
theorems account for through freshness/distinctness hypotheses.
-/

/-- A JSON-like value: `undefined`, `null`, booleans, numbers, strings,
timestamps (`Date`, as milliseconds), arrays and objects (ordered
key/value lists, mirroring JavaScript property order). -/
inductive Value : Type where
  | vundef : Value
  | vnull : Value
  | vnum : Int → Value
  | vstr : String → Value
  | vbool : Bool → Value
  | vdate : Int → Value
  | varr : List Value → Value
  | vobj : List (String × Value) → Value

mutual

/-- Decidable structural equality of values (the equality of spec §3:
recursive, with timestamps equal iff the same instant). -/
def Value.deq : (a b : Value) → Decidable (a = b)
  | .vundef, .vundef => isTrue rfl
  | .vnull, .vnull => isTrue rfl
  | .vnum x, .vnum y =>
    match decEq x y with
    | isTrue h => isTrue (h ▸ rfl)
    | isFalse h => isFalse fun hh => h (Value.vnum.inj hh)
  | .vstr x, .vstr y =>
    match decEq x y with
    | isTrue h => isTrue (h ▸ rfl)
    | isFalse h => isFalse fun hh => h (Value.vstr.inj hh)
  | .vbool x, .vbool y =>
    match decEq x y with
    | isTrue h => isTrue (h ▸ rfl)
    | isFalse h => isFalse fun hh => h (Value.vbool.inj hh)
  | .vdate x, .vdate y =>
    match decEq x y with
    | isTrue h => isTrue (h ▸ rfl)
    | isFalse h => isFalse fun hh => h (Value.vdate.inj hh)
  | .varr x, .varr y =>
    match Value.deqList x y with
    | isTrue h => isTrue (h ▸ rfl)
    | isFalse h => isFalse fun hh => h (Value.varr.inj hh)
  | .vobj x, .vobj y =>
    match Value.deqFields x y with
    | isTrue h => isTrue (h ▸ rfl)
    | isFalse h => isFalse fun hh => h (Value.vobj.inj hh)
  | .vundef, .vnull => isFalse fun h => Value.noConfusion h
  | .vundef, .vnum _ => isFalse fun h => Value.noConfusion h
  | .vundef, .vstr _ => isFalse fun h => Value.noConfusion h
  | .vundef, .vbool _ => isFalse fun h => Value.noConfusion h
  | .vundef, .vdate _ => isFalse fun h => Value.noConfusion h
  | .vundef, .varr _ => isFalse fun h => Value.noConfusion h
  | .vundef, .vobj _ => isFalse fun h => Value.noConfusion h
  | .vnull, .vundef => isFalse fun h => Value.noConfusion h
  | .vnull, .vnum _ => isFalse fun h => Value.noConfusion h
  | .vnull, .vstr _ => isFalse fun h => Value.noConfusion h
  | .vnull, .vbool _ => isFalse fun h => Value.noConfusion h
  | .vnull, .vdate _ => isFalse fun h => Value.noConfusion h
  | .vnull, .varr _ => isFalse fun h => Value.noConfusion h
  | .vnull, .vobj _ => isFalse fun h => Value.noConfusion h
  | .vnum _, .vundef => isFalse fun h => Value.noConfusion h
  | .vnum _, .vnull => isFalse fun h => Value.noConfusion h
  | .vnum _, .vstr _ => isFalse fun h => Value.noConfusion h
  | .vnum _, .vbool _ => isFalse fun h => Value.noConfusion h
  | .vnum _, .vdate _ => isFalse fun h => Value.noConfusion h
  | .vnum _, .varr _ => isFalse fun h => Value.noConfusion h
  | .vnum _, .vobj _ => isFalse fun h => Value.noConfusion h
  | .vstr _, .vundef => isFalse fun h => Value.noConfusion h
  | .vstr _, .vnull => isFalse fun h => Value.noConfusion h
  | .vstr _, .vnum _ => isFalse fun h => Value.noConfusion h
  | .vstr _, .vbool _ => isFalse fun h => Value.noConfusion h
  | .vstr _, .vdate _ => isFalse fun h => Value.noConfusion h
  | .vstr _, .varr _ => isFalse fun h => Value.noConfusion h
  | .vstr _, .vobj _ => isFalse fun h => Value.noConfusion h
  | .vbool _, .vundef => isFalse fun h => Value.noConfusion h
  | .vbool _, .vnull => isFalse fun h => Value.noConfusion h
  | .vbool _, .vnum _ => isFalse fun h => Value.noConfusion h
  | .vbool _, .vstr _ => isFalse fun h => Value.noConfusion h
  | .vbool _, .vdate _ => isFalse fun h => Value.noConfusion h
  | .vbool _, .varr _ => isFalse fun h => Value.noConfusion h
  | .vbool _, .vobj _ => isFalse fun h => Value.noConfusion h
  | .vdate _, .vundef => isFalse fun h => Value.noConfusion h
  | .vdate _, .vnull => isFalse fun h => Value.noConfusion h
  | .vdate _, .vnum _ => isFalse fun h => Value.noConfusion h
  | .vdate _, .vstr _ => isFalse fun h => Value.noConfusion h
  | .vdate _, .vbool _ => isFalse fun h => Value.noConfusion h
  | .vdate _, .varr _ => isFalse fun h => Value.noConfusion h
  | .vdate _, .vobj _ => isFalse fun h => Value.noConfusion h
  | .varr _, .vundef => isFalse fun h => Value.noConfusion h
  | .varr _, .vnull => isFalse fun h => Value.noConfusion h
  | .varr _, .vnum _ => isFalse fun h => Value.noConfusion h
  | .varr _, .vstr _ => isFalse fun h => Value.noConfusion h
  | .varr _, .vbool _ => isFalse fun h => Value.noConfusion h
  | .varr _, .vdate _ => isFalse fun h => Value.noConfusion h
  | .varr _, .vobj _ => isFalse fun h => Value.noConfusion h
  | .vobj _, .vundef => isFalse fun h => Value.noConfusion h
  | .vobj _, .vnull => isFalse fun h => Value.noConfusion h
  | .vobj _, .vnum _ => isFalse fun h => Value.noConfusion h
  | .vobj _, .vstr _ => isFalse fun h => Value.noConfusion h
  | .vobj _, .vbool _ => isFalse fun h => Value.noConfusion h
  | .vobj _, .vdate _ => isFalse fun h => Value.noConfusion h
  | .vobj _, .varr _ => isFalse fun h => Value.noConfusion h

/-- Decidable equality of value lists. -/
def Value.deqList : (a b : List Value) → Decidable (a = b)
  | [], [] => isTrue rfl
  | [], _ :: _ => isFalse fun h => List.noConfusion h
  | _ :: _, [] => isFalse fun h => List.noConfusion h
  | x :: xs, y :: ys =>
    match Value.deq x y with
    | isTrue h1 =>
      match Value.deqList xs ys with
      | isTrue h2 => isTrue (by rw [h1, h2])
      | isFalse h2 => isFalse fun h => h2 (List.cons.inj h).2
    | isFalse h1 => isFalse fun h => h1 (List.cons.inj h).1

/-- Decidable equality of object field lists. -/
def Value.deqFields : (a b : List (String × Value)) → Decidable (a = b)
  | [], [] => isTrue rfl
  | [], _ :: _ => isFalse fun h => List.noConfusion h
  | _ :: _, [] => isFalse fun h => List.noConfusion h
  | (k, v) :: xs, (l, w) :: ys =>
    match decEq k l with
    | isTrue hk =>
      match Value.deq v w with
      | isTrue hv =>
        match Value.deqFields xs ys with
        | isTrue h2 => isTrue (by rw [hk, hv, h2])
        | isFalse h2 => isFalse fun h => h2 (List.cons.inj h).2
      | isFalse hv =>
        isFalse fun h => hv (congrArg Prod.snd (List.cons.inj h).1)
    | isFalse hk =>
      isFalse fun h => hk (congrArg Prod.fst (List.cons.inj h).1)

end

instance : DecidableEq Value := Value.deq

/-- Error kinds surfaced by the store (spec §7). -/
inductive DBError : Type where
  | uniqueViolated : DBError
  | invalidDocument : DBError
  | invalidUpdate : DBError
  | inconsistentProjection : DBError
  | missingFieldName : DBError
deriving DecidableEq

/-- Decidable equality of fallible results. -/
instance {ε α : Type} [DecidableEq ε] [DecidableEq α] : DecidableEq (Except ε α)
  | .ok x, .ok y =>
    if h : x = y then isTrue (by rw [h])
    else isFalse fun hh => h (Except.ok.inj hh)
  | .error x, .error y =>
    if h : x = y then isTrue (by rw [h])
    else isFalse fun hh => h (Except.error.inj hh)
  | .ok _, .error _ => isFalse fun h => Except.noConfusion h
  | .error _, .ok _ => isFalse fun h => Except.noConfusion h

/-- Comparator on `Nat` (trichotomy by `<` / `=`). -/
def natCmp (a b : Nat) : Ordering :=
  if a < b then .lt else if a = b then .eq else .gt

/-- Comparator on `Int`. -/
def intCmp (a b : Int) : Ordering :=
  if a < b then .lt else if a = b then .eq else .gt

/-- Booleans: `false < true` (spec §3). -/
def boolCmp (a b : Bool) : Ordering :=
  match a, b with
  | false, false => .eq
  | false, true => .lt
  | true, false => .gt
  | true, true => .eq

/-- Lexicographic code-point comparison of character lists (the default
string comparison of the store, spec §3/§6). -/
def charListCmp : List Char → List Char → Ordering
  | [], [] => .eq
  | [], _ :: _ => .lt
  | _ :: _, [] => .gt
  | c :: cs, d :: ds =>
    match natCmp c.toNat d.toNat with
    | .eq => charListCmp cs ds
    | o => o

/-- Default string comparator: lexicographic by code point. -/
def strCmp (a b : String) : Ordering :=
  charListCmp a.data b.data

/-- Cross-type bucket rank of a value (spec §3: undefined < null < number
< string < boolean < timestamp < array < object). -/
def typeRank : Value → Nat
  | .vundef => 0
  | .vnull => 1
  | .vnum _ => 2
  | .vstr _ => 3
  | .vbool _ => 4
  | .vdate _ => 5
  | .varr _ => 6
  | .vobj _ => 7

mutual

/-- Modelled from the spec: the total order over values (`model.compareThings`
of the missing `src/model`, spec §3).  Values in different type buckets
compare by bucket rank; numbers, strings, booleans and timestamps by
their natural order; arrays element-wise with shorter-prefix-first;
objects by (key, value) pairs then by length. -/
def compareThings : Value → Value → Ordering
  | .vnum x, .vnum y => intCmp x y
  | .vstr x, .vstr y => strCmp x y
  | .vbool x, .vbool y => boolCmp x y
  | .vdate x, .vdate y => intCmp x y
  | .varr x, .varr y => cmpValList x y
  | .vobj x, .vobj y => cmpFieldList x y
  | a, b => natCmp (typeRank a) (typeRank b)

/-- Element-wise comparison of value lists; a strict prefix is smaller. -/
def cmpValList : List Value → List Value → Ordering
  | [], [] => .eq
  | [], _ :: _ => .lt
  | _ :: _, [] => .gt
  | x :: xs, y :: ys =>
    match compareThings x y with
    | .eq => cmpValList xs ys
    | o => o

/-- Comparison of object field lists by (key, value) pairs, then length. -/
def cmpFieldList : List (String × Value) → List (String × Value) → Ordering
  | [], [] => .eq
  | [], _ :: _ => .lt
  | _ :: _, [] => .gt
  | (k, v) :: xs, (l, w) :: ys =>
    match strCmp k l with
    | .eq =>
      match compareThings v w with
      | .eq => cmpFieldList xs ys
      | o => o
    | o => o

end

/-! ## Document model (`src/model` is not part of the provided sources;
its functions are modelled from the spec, §3/§4.1). -/

/-- Property lookup on an object field list (JavaScript `obj[k]`;
`none` models an absent property, i.e. `undefined`). -/
def objGet (fs : List (String × Value)) (k : String) : Option Value :=
  match fs.find? (fun p => p.1 == k) with
  | some p => some p.2
  | none => none

/-- Property assignment: replace in place if the key exists (JavaScript
keeps the original property position), else append at the end. -/
def objSet (fs : List (String × Value)) (k : String) (w : Value) : List (String × Value) :=
  match fs with
  | [] => [(k, w)]
  | (k', v') :: rest => if k' = k then (k', w) :: rest else (k', v') :: objSet rest k w

/-- Property deletion (JavaScript `delete obj[k]`). -/
def objDelete (fs : List (String × Value)) (k : String) : List (String × Value) :=
  fs.filter (fun p => p.1 ≠ k)

mutual

/-- Structural size of a value (the fuel measure of the dotted walk and
of query matching; the derived `sizeOf` of the nested inductive has no
executable code). -/
def valSize : Value → Nat
  | .varr l => listValSize l + 1
  | .vobj fs => fieldsValSize fs + 1
  | _ => 1

/-- `valSize` over array elements. -/
def listValSize : List Value → Nat
  | [] => 0
  | x :: xs => valSize x + listValSize xs + 1

/-- `valSize` over object fields. -/
def fieldsValSize : List (String × Value) → Nat
  | [] => 0
  | p :: rest => valSize p.2 + fieldsValSize rest + 1

end

/-- `key[0] === '$'` over the character list (the character-level form
keeps the function kernel-computable). -/
def strStartsDollar (k : String) : Bool :=
  match k.toList with
  | c :: _ => c = '$'
  | [] => false

/-- `key.indexOf('.') !== -1` over the character list (the
character-level form keeps the function kernel-computable). -/
def strHasDot (k : String) : Bool := k.toList.contains '.'

/-- `String.prototype.split('.')` over the character list: the segment
collected so far is emitted at each dot and at the end. -/
def splitOnDotAux : List Char → List Char → List String
  | [], acc => [String.mk acc.reverse]
  | c :: cs, acc =>
    if c = '.' then String.mk acc.reverse :: splitOnDotAux cs []
    else splitOnDotAux cs (c :: acc)

/-- `path.split('.')`. -/
def splitOnDot (s : String) : List String := splitOnDotAux s.toList []

/-- Decimal parse of a path segment used as an array index (the numeric
test of `getDotValue` on a part): all-digit nonempty segments parse. -/
def charsToNat? (s : String) : Option Nat :=
  let cs := s.toList
  if cs ≠ [] ∧ cs.all (fun c => c.isDigit) then
    some (cs.foldl (fun n c => n * 10 + (c.toNat - 48)) 0)
  else none

/-- A key is storable when it does not start with `$` and contains no `.`
(spec §4.1, `checkObject`). -/
def validKey (k : String) : Bool :=
  !(strStartsDollar k) && !(strHasDot k)

mutual

/-- Modelled from the spec: `model.checkObject` (§4.1) — reject keys
containing `.` or starting with `$`, recursively. -/
def checkObjectOk : Value → Bool
  | .vobj fs => checkFieldsOk fs
  | .varr l => checkListOk l
  | _ => true

/-- `checkObjectOk` over array elements. -/
def checkListOk : List Value → Bool
  | [] => true
  | x :: xs => checkObjectOk x && checkListOk xs

/-- `checkObjectOk` over object fields. -/
def checkFieldsOk : List (String × Value) → Bool
  | [] => true
  | (k, v) :: rest => validKey k && checkObjectOk v && checkFieldsOk rest

end

mutual

/-- Modelled from the spec: `model.deepCopy` (§3 — deep copies taken at
the result boundaries).  Structural recursive copy. -/
def deepCopy : Value → Value
  | .varr l => .varr (deepCopyList l)
  | .vobj fs => .vobj (deepCopyFields fs)
  | v => v

/-- `deepCopy` over array elements. -/
def deepCopyList : List Value → List Value
  | [] => []
  | x :: xs => deepCopy x :: deepCopyList xs

/-- `deepCopy` over object fields. -/
def deepCopyFields : List (String × Value) → List (String × Value)
  | [] => []
  | (k, v) :: rest => (k, deepCopy v) :: deepCopyFields rest

end

mutual

/-- Modelled from the spec: `model.deepCopy(·, strictKeys)` — a deep copy
that drops keys containing `.` or starting with `$` (used by `_update`
to strip the find query of operators before an upsert, spec §4.5). -/
def deepCopyStrict : Value → Value
  | .varr l => .varr (deepCopyStrictList l)
  | .vobj fs => .vobj (deepCopyStrictFields fs)
  | v => v

/-- `deepCopyStrict` over array elements. -/
def deepCopyStrictList : List Value → List Value
  | [] => []
  | x :: xs => deepCopyStrict x :: deepCopyStrictList xs

/-- `deepCopyStrict` over object fields: invalid keys are dropped. -/
def deepCopyStrictFields : List (String × Value) → List (String × Value)
  | [] => []
  | (k, v) :: rest =>
    if validKey k then (k, deepCopyStrict v) :: deepCopyStrictFields rest
    else deepCopyStrictFields rest

end


/-- Modelled from the spec: `model.getDotValue` (§4.1).  Split the path on
`.` and walk down; on an array, a decimal-integer segment indexes the
array, any other segment maps the remaining lookup over the elements,
skipping elements where the result is undefined.  A missing path yields
`undefined`. -/
def getDotPartsF : Nat → Value → List String → Value
  | 0, _, _ => .vundef
  | _ + 1, v, [] => v
  | fuel + 1, .vobj fs, p :: ps =>
    (match objGet fs p with
     | some w => getDotPartsF fuel w ps
     | none => .vundef )
  | fuel + 1, .varr l, p :: ps =>
    (match charsToNat? p with
     | some i =>
       (match l.get? i with
        | some w => getDotPartsF fuel w ps
        | none => .vundef )
     | none =>
       .varr ((l.map (fun e => getDotPartsF fuel e (p :: ps))).filter
         (fun r => r ≠ .vundef )))
  | _ + 1, _, _ :: _ => (.vundef)

/-- The dotted walk at its adequate fuel: every recursive step of the
source's walk moves to a structurally smaller value, a shorter part
list or both, so `valSize v + parts.length` steps always suffice. -/
def getDotParts (v : Value) (parts : List String) : Value :=
  getDotPartsF (valSize v + parts.length + 1) v parts

/-- `model.getDotValue` on a dotted path string. -/
def getDotValue (doc : Value) (path : String) : Value :=
  getDotParts doc (splitOnDot path)

/-- Field-value matching with array membership (spec §4.1: a plain query
value matches when the document value equals it, or — when the document
value is an array — when any element equals it or the whole array equals
it). -/
def matchFieldValue (dv qv : Value) : Bool :=
  match dv with
  | .varr l => l.any (fun e => decide (e = qv)) || decide (dv = qv)
  | _ => decide (dv = qv)

/-- JavaScript truthiness of a value (used for the `$exists` operand). -/
def jsTruthy : Value → Bool
  | .vundef => false
  | .vnull => false
  | .vbool b => b
  | .vnum n => decide (n ≠ 0)
  | .vstr s => decide (s ≠ "")
  | _ => true

/-- Modelled from the spec: evaluation of a single comparison operator
(§4.1).  Comparison operators use the total order of §3; `$in` checks
element-wise equality; `$exists` tests for defined; `$size` matches
arrays of exact length.  `$regex`, `$elemMatch` and `$where` take
regular expressions or predicate functions and are outside this
embedding; they evaluate to `false` here (no studied claim exercises
them). -/
def evalCmpOp (opName : String) (dv operand : Value) : Bool :=
  if opName = "$lt" then decide (compareThings dv operand = .lt)
  else if opName = "$lte" then decide (compareThings dv operand ≠ .gt)
  else if opName = "$gt" then decide (compareThings dv operand = .gt)
  else if opName = "$gte" then decide (compareThings dv operand ≠ .lt)
  else if opName = "$ne" then !(matchFieldValue dv operand)
  else if opName = "$in" then
    (match operand with
     | .varr l => l.any (fun x => matchFieldValue dv x)
     | _ => false)
  else if opName = "$nin" then
    (match operand with
     | .varr l => !(l.any (fun x => matchFieldValue dv x))
     | _ => false)
  else if opName = "$exists" then
    (decide (dv ≠ .vundef)) == jsTruthy operand
  else if opName = "$size" then
    (match dv, operand with
     | .varr l, .vnum n => decide ((l.length : Int) = n)
     | _, _ => false)
  else false

/-- Does a query value denote an operator object (all keys `$`-prefixed)? -/
def isOperatorObject : Value → Bool
  | .vobj fs => !fs.isEmpty && fs.all (fun p => strStartsDollar p.1)
  | _ => false

/-- Modelled from the spec: matching of a single field-path entry
(§4.1): an operator object applies each comparison operator to the
value at the path; a plain value matches by equality with array
membership. -/
def matchField (doc : Value) (k : String) (qv : Value) : Bool :=
  let dv := getDotValue doc k
  match qv with
  | .vobj fs =>
    if !fs.isEmpty && fs.all (fun p => strStartsDollar p.1) then
      fs.all (fun p => evalCmpOp p.1 dv p.2)
    else matchFieldValue dv qv
  | _ => matchFieldValue dv qv

/-- Modelled from the spec: `model.match` (§4.1), at explicit recursion
fuel (each recursive step descends into a structurally smaller
sub-query, so `valSize` of the query bounds the depth).  A query is an
object whose top-level entries are logical combinators (`$or`, `$and`,
`$nor`, over an array of sub-queries, as a disjunction, conjunction and
negated disjunction respectively) or field paths.  `$where` takes a
caller-supplied predicate function and is outside this embedding. -/
def matchQF : Nat → Value → Value → Bool
  | 0, _, _ => false
  | fuel + 1, doc, q =>
    match q with
    | .vobj fs =>
      fs.all (fun p =>
        if p.1 = "$or" then
          (match p.2 with
           | .varr subs => subs.any (fun sq => matchQF fuel doc sq)
           | _ => false)
        else if p.1 = "$and" then
          (match p.2 with
           | .varr subs => subs.all (fun sq => matchQF fuel doc sq)
           | _ => false)
        else if p.1 = "$nor" then
          (match p.2 with
           | .varr subs => !(subs.any (fun sq => matchQF fuel doc sq))
           | _ => false)
        else matchField doc p.1 p.2)
    | _ => false

/-- `model.match` at its adequate fuel. -/
def matchQ (doc q : Value) : Bool := matchQF (valSize q + 1) doc q

/-- Set a value at a dotted path (split into parts) inside an object,
creating intermediate objects for missing segments (the `$set` modifier
of spec §4.1).  Paths descending through a non-object leave the value
unchanged (not exercised by the claims). -/
def setDotParts : Value → List String → Value → Value
  | .vobj fs, [k], w => .vobj (objSet fs k w)
  | .vobj fs, k :: rest, w =>
    let inner := match objGet fs k with
                 | some iv => iv
                 | none => .vobj []
    .vobj (objSet fs k (setDotParts inner rest w))
  | v, _, _ => v

/-- `$set` at a dotted path. -/
def setDot (doc : Value) (path : String) (w : Value) : Value :=
  setDotParts doc (splitOnDot path) w

/-- Remove a value at a dotted path inside an object (the `$unset`
modifier of spec §4.1). -/
def unsetDotParts : Value → List String → Value
  | .vobj fs, [k] => .vobj (objDelete fs k)
  | .vobj fs, k :: rest =>
    (match objGet fs k with
     | some iv => .vobj (objSet fs k (unsetDotParts iv rest))
     | none => .vobj fs)
  | v, _ => v

/-- `$unset` at a dotted path. -/
def unsetDot (doc : Value) (path : String) : Value :=
  unsetDotParts doc (splitOnDot path)

/-- Does a key start with `$` (modifier / operator detection)? -/
def startsDollar (k : String) : Bool := strStartsDollar k

/-- Modelled from the spec: application of one update modifier (§4.1).
Each modifier maps dotted paths to operands.  Of the closed modifier
set, `$set` and `$unset` are modelled; the remaining modifiers
(`$inc`, `$min`, `$max`, `$push`, `$pop`, `$addToSet`, `$pull`) are not
exercised by any studied claim and evaluate to an *InvalidUpdate* error
here, as does an unknown modifier. -/
def applyOneModifier (doc : Value) (m : String) (operand : Value) : Except DBError Value :=
  match operand with
  | .vobj ps =>
    if m = "$set" then .ok (ps.foldl (fun d p => setDot d p.1 p.2) doc)
    else if m = "$unset" then .ok (ps.foldl (fun d p => unsetDot d p.1) doc)
    else .error .invalidUpdate
  | _ => .error .invalidUpdate

/-- The `_id` of a document (`undefined` when absent). -/
def docIdOf (d : Value) : Value :=
  match d with
  | .vobj fs =>
    (match objGet fs "_id" with
     | some i => i
     | none => .vundef )
  | _ => (.vundef)

/-- Modelled from the spec: `model.modify` (§4.1).  An update with no
`$`-prefixed top-level key is a replacement with `_id` preserved from
the old document (a differing `_id` in the update fails with
*InvalidUpdate*); otherwise every top-level key must be a modifier, and
modifiers are applied in declaration order to a fresh copy. -/
def Model.modify (doc upd : Value) : Except DBError Value :=
  match upd with
  | .vobj fields =>
    if fields.any (fun p => startsDollar p.1) then
      if fields.all (fun p => startsDollar p.1) then
        fields.foldlM (fun d p => applyOneModifier d p.1 p.2) (deepCopy doc)
      else .error .invalidUpdate
    else
      (match objGet fields "_id", docIdOf doc with
       | some _, .vundef => .ok (deepCopy (.vobj fields))
       | some nid, oid =>
         if nid = oid then .ok (deepCopy (.vobj fields)) else .error .invalidUpdate
       | none, .vundef => .ok (deepCopy (.vobj fields))
       | none, oid => .ok (deepCopy (.vobj (objSet fields "_id" oid))))
  | _ => .error .invalidUpdate

/-! ## Index (`src/indexes`, provided as source) backed by an ordered
multimap.  The external `binary-search-tree` AVL tree is modelled at its
interface by a key-sorted association list from keys to the node's
document list; the serialised in-order traversal of the AVL tree is the
concatenation of the buckets in key order, i.e. exactly this list. -/

/-- `projectForUnique` from `src/indexes`: type-aware projection used to
deduplicate array keys.  Mirrors the source's branch order: `null` and
arrays project to `"$null"`, then strings, booleans and numbers get a
type tag; everything else (objects, timestamps) projects to itself.
(The source's trailing `$date` branch is unreachable: it re-tests
`Array.isArray` already caught by the first branch.) -/
def projectForUnique (elt : Value) : Value :=
  match elt with
  | .vnull => .vstr "$null"
  | .varr _ => .vstr "$null"
  | .vstr s => .vstr ("$string" ++ s)
  | .vbool b => .vstr ("$boolean" ++ (if b then "true" else "false"))
  | .vnum n => .vstr ("$number" ++ toString n)
  | _ => elt

/-- `_.uniq(key, projectForUnique)`: keep the first element for each
distinct projection.  (JavaScript compares the projected values with
`===`; here projected objects compare structurally, which identifies
pointer-distinct but structurally equal elements — the freshness
hypotheses of the theorems account for this.) -/
def uniqProjAux : List Value → List Value → List Value
  | [], _ => []
  | x :: xs, seen =>
    let p := projectForUnique x
    if p ∈ seen then uniqProjAux xs seen else x :: uniqProjAux xs (p :: seen)

/-- Deduplicate an array key by its type-tagged projection. -/
def uniqProj (l : List Value) : List Value := uniqProjAux l []

/-- A tree is a key-sorted association list of (key, bucket) nodes. -/
abbrev IdxTree := List (Value × List Value)

/-- `tree.insert(key, doc)`: walk to the key's position; on an existing
key, a unique tree fails with *UniqueViolation* and a non-unique tree
appends the document to the node's list; a new key becomes a new node at
its sorted position.  A failed insert leaves the tree untouched (the AVL
tree throws before mutating). -/
def treeInsert (u : Bool) (k d : Value) : IdxTree → Except DBError IdxTree
  | [] => .ok [(k, [d])]
  | (k', ds) :: t =>
    match compareThings k k' with
    | .lt => .ok ((k, [d]) :: (k', ds) :: t)
    | .eq => if u then .error .uniqueViolated else .ok ((k', ds ++ [d]) :: t)
    | .gt =>
      (match treeInsert u k d t with
       | .ok t' => .ok ((k', ds) :: t')
       | .error e => .error e)

/-- `tree.delete(key, doc)`: a missing key is a no-op; a node holding
more than one document keeps the node and filters out the documents
equal to `doc`; a node holding a single document is removed whole
(mirroring the backing tree, which removes a single-datum node without
re-checking the value). -/
def treeDelete (k d : Value) : IdxTree → IdxTree
  | [] => []
  | (k', ds) :: t =>
    match compareThings k k' with
    | .lt => (k', ds) :: t
    | .eq => if 1 < ds.length then (k', ds.filter (fun x => x ≠ d)) :: t else t
    | .gt => (k', ds) :: treeDelete k d t

/-- `tree.search(key)`: the bucket stored under the key, `[]` if none. -/
def treeSearch (k : Value) : IdxTree → List Value
  | [] => []
  | (k', ds) :: t =>
    match compareThings k k' with
    | .eq => ds
    | .lt => []
    | .gt => treeSearch k t

/-- In-order traversal: concatenation of the buckets in key order
(`executeOnEveryNode` pushing every `node.data` element). -/
def treeGetAll (t : IdxTree) : List Value :=
  t.foldr (fun p acc => p.2 ++ acc) []

/-- Lower-bound test of `betweenBounds` (`$gt`/`$gte`). -/
def boundsLo (q : List (String × Value)) (k : Value) : Bool :=
  (match objGet q "$gt" with
   | some b => decide (compareThings k b = .gt)
   | none => true) &&
  (match objGet q "$gte" with
   | some b => decide (compareThings k b ≠ .lt)
   | none => true)

/-- Upper-bound test of `betweenBounds` (`$lt`/`$lte`). -/
def boundsHi (q : List (String × Value)) (k : Value) : Bool :=
  (match objGet q "$lt" with
   | some b => decide (compareThings k b = .lt)
   | none => true) &&
  (match objGet q "$lte" with
   | some b => decide (compareThings k b ≠ .gt)
   | none => true)

/-- `tree.betweenBounds(query)`: ordered range scan. -/
def treeBetweenBounds (q : Value) (t : IdxTree) : List Value :=
  match q with
  | .vobj fs => treeGetAll (t.filter (fun p => boundsLo fs p.1 && boundsHi fs p.1))
  | _ => treeGetAll t

/-- Specification-side bucket lookup: the bucket literally stored under
key `q` (first match; well-formed trees hold each key at most once). -/
def semAt (t : IdxTree) (q : Value) : List Value :=
  match t with
  | [] => []
  | (k, ds) :: rest => if k = q then ds else semAt rest q

/-- Effect of `tree.delete` on a single bucket: a bucket with more than
one entry is filtered, a smaller bucket is dropped whole. -/
def bucketDel (d : Value) (ds : List Value) : List Value :=
  if 1 < ds.length then ds.filter (fun x => x ≠ d) else []

/-- Well-formedness of a tree: keys strictly ascending in the total
order, every bucket non-empty and duplicate-free. -/
def TreeWF (t : IdxTree) : Prop :=
  t.Pairwise (fun a b => compareThings a.1 b.1 = .lt) ∧
    ∀ p ∈ t, p.2 ≠ [] ∧ p.2.Nodup

/-- The `Index` of `src/indexes`: a field name, unique/sparse flags and
the backing tree. -/
structure Index where
  fieldName : String
  unique : Bool
  sparse : Bool
  tree : IdxTree
deriving DecidableEq

/-- A fresh index (`new Index(options)` / `reset()`). -/
def Index.make (fieldName : String) (unique sparse : Bool) : Index :=
  ⟨fieldName, unique, sparse, []⟩

/-- The indexed key of a document. -/
def Index.keyOf (idx : Index) (doc : Value) : Value :=
  getDotValue doc idx.fieldName

/-- The tree keys a document occupies in an index: none when sparse and
the field is undefined, the deduplicated elements for an array value,
the value itself otherwise. -/
def Index.docKeys (idx : Index) (doc : Value) : List Value :=
  let k := idx.keyOf doc
  if k = .vundef ∧ idx.sparse then []
  else
    match k with
    | .varr l => uniqProj l
    | _ => [k]

/-- The array-key insertion loop of `Index.insert`: insert the document
under each key in order; if an insert fails, delete the keys inserted so
far (in forward order, as the source does) and report the error. -/
def insertKeysLoop (u : Bool) (d : Value) (ks : List Value) (t : IdxTree) (done : List Value) :
    IdxTree × Option DBError :=
  match ks with
  | [] => (t, none)
  | k :: rest =>
    match treeInsert u k d t with
    | .ok t' => insertKeysLoop u d rest t' (done ++ [k])
    | .error e => (done.foldl (fun acc kk => treeDelete kk d acc) t, some e)

/-- `Index.insert` for a single document: skip when sparse and the field
is undefined; insert the pair `(key, doc)` for a non-array key; for an
array key, insert once under each distinct (by `projectForUnique`)
element with rollback of this call's inserts on failure. -/
def Index.insertOne (idx : Index) (doc : Value) : Index × Option DBError :=
  let key := getDotValue doc idx.fieldName
  if key = .vundef ∧ idx.sparse then (idx, none)
  else
    match key with
    | .varr l =>
      (match insertKeysLoop idx.unique doc (uniqProj l) idx.tree [] with
       | (t', none) => ({ idx with tree := t' }, none)
       | (t', some e) => ({ idx with tree := t' }, some e))
    | _ =>
      (match treeInsert idx.unique key doc idx.tree with
       | .ok t' => ({ idx with tree := t' }, none)
       | .error e => (idx, some e))

/-- `Index.remove` for a single document: symmetric to insert; never
fails. -/
def Index.removeOne (idx : Index) (doc : Value) : Index :=
  let key := getDotValue doc idx.fieldName
  if key = .vundef ∧ idx.sparse then idx
  else
    match key with
    | .varr l => { idx with tree := (uniqProj l).foldl (fun t k => treeDelete k doc t) idx.tree }
    | _ => { idx with tree := treeDelete key doc idx.tree }

/-- `Index.insertMultipleDocs`: insert documents in order; on a failure
at position `i`, remove documents `0..i-1` (forward) and rethrow. -/
def Index.insertManyAux (idx : Index) (docs done : List Value) : Index × Option DBError :=
  match docs with
  | [] => (idx, none)
  | d :: rest =>
    match idx.insertOne d with
    | (idx1, none) => Index.insertManyAux idx1 rest (done ++ [d])
    | (idx1, some e) => (done.foldl (fun i dd => i.removeOne dd) idx1, some e)

/-- `Index.insert` on an array of documents. -/
def Index.insertMany (idx : Index) (docs : List Value) : Index × Option DBError :=
  Index.insertManyAux idx docs []

/-- `Index.update(oldDoc, newDoc)` for a single pair: remove the old
document, insert the new one; if that insert fails, re-insert the old
document and report the original error (an error thrown by the
re-insert would itself propagate, as in the source). -/
def Index.updateOne (idx : Index) (oldDoc newDoc : Value) : Index × Option DBError :=
  let idx1 := idx.removeOne oldDoc
  match idx1.insertOne newDoc with
  | (idx2, none) => (idx2, none)
  | (idx2, some e) =>
    (match idx2.insertOne oldDoc with
     | (idx3, none) => (idx3, some e)
     | (idx3, some e2) => (idx3, some e2))

/-- The rollback tail of `Index.updateMultipleDocs`: re-insert every
`oldDoc` in order; an error thrown by a re-insert aborts the loop and
replaces the propagated error, as the uncaught exception does in the
source. -/
def rollbackInsertOld (idx : Index) (pairs : List (Value × Value)) (e : DBError) :
    Index × Option DBError :=
  match pairs with
  | [] => (idx, some e)
  | p :: rest =>
    match idx.insertOne p.1 with
    | (idx1, none) => rollbackInsertOld idx1 rest e
    | (idx1, some e2) => (idx1, some e2)

/-- Phase two of `Index.updateMultipleDocs`: insert every `newDoc` in
order; on failure at position `i`, remove the `newDoc`s inserted at
positions `< i` (forward), then re-insert every `oldDoc`. -/
def updateMultiPhase2 (idx : Index) (pairs done allPairs : List (Value × Value)) :
    Index × Option DBError :=
  match pairs with
  | [] => (idx, none)
  | p :: rest =>
    match idx.insertOne p.2 with
    | (idx1, none) => updateMultiPhase2 idx1 rest (done ++ [p]) allPairs
    | (idx1, some e) =>
      rollbackInsertOld (done.foldl (fun i pp => i.removeOne pp.2) idx1) allPairs e

/-- `Index.updateMultipleDocs(pairs)`: two-phase — remove every
`oldDoc`, then insert every `newDoc`, with the rollback of
`updateMultiPhase2` on failure. -/
def Index.updateMulti (idx : Index) (pairs : List (Value × Value)) : Index × Option DBError :=
  updateMultiPhase2 (pairs.foldl (fun i p => i.removeOne p.1) idx) pairs [] pairs

/-- `Index.revertUpdate` on a pairs list: apply the batch update with
old and new documents swapped. -/
def Index.revertUpdateMulti (idx : Index) (pairs : List (Value × Value)) :
    Index × Option DBError :=
  Index.updateMulti idx (pairs.map (fun p => (p.2, p.1)))

/-- Union of per-element results deduplicated by `_id`, keeping the
first document seen per id (`getMatching` over an array collects into
an object keyed by `_id`; the model keeps first-assignment order —
JavaScript's integer-like-key reordering of `Object.keys` is not
modelled, and no studied claim exercises it). -/
def dedupByIdAux : List Value → List Value → List Value
  | [], _ => []
  | d :: rest, seen =>
    if docIdOf d ∈ seen then dedupByIdAux rest seen
    else d :: dedupByIdAux rest (docIdOf d :: seen)

/-- `Index.getMatching(value)`: tree search for a plain value; for an
array, the deduplicated union of the per-element matches. -/
def Index.getMatching (idx : Index) (v : Value) : List Value :=
  match v with
  | .varr l => dedupByIdAux (l.foldl (fun acc x => acc ++ treeSearch x idx.tree) []) []
  | _ => treeSearch v idx.tree

/-- `Index.getAll`: the in-order traversal. -/
def Index.getAll (idx : Index) : List Value :=
  treeGetAll idx.tree

/-! ## Store facade (`MemoryDB` of the provided sources).  Persistence,
the executor queue and the callback/promise adapter are external
collaborators (spec §1); operation cores are modelled as pure state
transformers on the index set and TTL registry. -/

/-- Association-list lookup by string key (`this.indexes[f]`,
`this.ttlIndexes[f]`). -/
def assocFind {β : Type} (l : List (String × β)) (k : String) : Option β :=
  match l.find? (fun p => p.1 == k) with
  | some p => some p.2
  | none => none

/-- The store state: indexes in creation order (`_id` first, as built by
the constructor) and the TTL registry. -/
structure MemoryDB where
  indexes : List (String × Index)
  ttlIndexes : List (String × Int)
deriving DecidableEq

/-- A fresh store: only the always-present unique `_id` index. -/
def MemoryDB.empty : MemoryDB :=
  ⟨[("_id", Index.make "_id" true false)], []⟩

/-- `getAllData`: the in-order traversal of the `_id` index (`[]` when
that index has been removed — the source would fail on the missing
property). -/
def MemoryDB.getAllData (db : MemoryDB) : List Value :=
  match assocFind db.indexes "_id" with
  | some idx => treeGetAll idx.tree
  | none => []

/-- The loop of `addToIndexes`: insert the document into each index in
order; on the first failure, remove the document from the indexes
already updated (the source iterates them forward; the per-entry update
of independent indexes is order-insensitive) and report the error. -/
def MemoryDB.addToIndexesAux (doc : Value) (pending done : List (String × Index)) :
    List (String × Index) × Option DBError :=
  match pending with
  | [] => (done, none)
  | (f, idx) :: rest =>
    match idx.insertOne doc with
    | (idx1, none) => MemoryDB.addToIndexesAux doc rest (done ++ [(f, idx1)])
    | (idx1, some e) =>
      (done.map (fun p => (p.1, p.2.removeOne doc)) ++ (f, idx1) :: rest, some e)

/-- `addToIndexes(doc)` with cross-index rollback. -/
def MemoryDB.addToIndexes (db : MemoryDB) (doc : Value) : MemoryDB × Option DBError :=
  match MemoryDB.addToIndexesAux doc db.indexes [] with
  | (idxs, r) => ({ db with indexes := idxs }, r)

/-- `removeFromIndexes(doc)`: remove from every index; never fails. -/
def MemoryDB.removeFromIndexes (db : MemoryDB) (doc : Value) : MemoryDB :=
  { db with indexes := db.indexes.map (fun p => (p.1, p.2.removeOne doc)) }

/-- The rollback loop of `updateIndexes`: `revertUpdate` on the indexes
already committed, in order; an error thrown by a revert aborts the
loop and replaces the propagated error (the uncaught exception of the
source). -/
def MemoryDB.revertDone (pairs : List (Value × Value)) :
    List (String × Index) → List (String × Index) × Option DBError
  | [] => ([], none)
  | (f, idx) :: rest =>
    match idx.revertUpdateMulti pairs with
    | (idx1, none) =>
      (match MemoryDB.revertDone pairs rest with
       | (rest', r) => ((f, idx1) :: rest', r))
    | (idx1, some e2) => ((f, idx1) :: rest, some e2)

/-- The loop of `updateIndexes`: apply the batch update to each index in
order; on the first failure, revert the indexes already committed and
report the error. -/
def MemoryDB.updateIndexesAux (pairs : List (Value × Value)) (pending done : List (String × Index)) :
    List (String × Index) × Option DBError :=
  match pending with
  | [] => (done, none)
  | (f, idx) :: rest =>
    match idx.updateMulti pairs with
    | (idx1, none) => MemoryDB.updateIndexesAux pairs rest (done ++ [(f, idx1)])
    | (idx1, some e) =>
      (match MemoryDB.revertDone pairs done with
       | (done', none) => (done' ++ (f, idx1) :: rest, some e)
       | (done', some e2) => (done' ++ (f, idx1) :: rest, some e2))

/-- `updateIndexes(modifications)` with cross-index rollback. -/
def MemoryDB.updateIndexes (db : MemoryDB) (pairs : List (Value × Value)) :
    MemoryDB × Option DBError :=
  match MemoryDB.updateIndexesAux pairs db.indexes [] with
  | (idxs, r) => ({ db with indexes := idxs }, r)

/-- The loop of `_insertMultipleDocsInCache`: add each document to all
indexes in order; on a failure at position `i`, remove documents
`0..i-1` from all indexes (forward) and report the error. -/
def MemoryDB.insertMultiAux (db : MemoryDB) (docs done : List Value) :
    MemoryDB × Option DBError :=
  match docs with
  | [] => (db, none)
  | d :: rest =>
    match db.addToIndexes d with
    | (db1, none) => MemoryDB.insertMultiAux db1 rest (done ++ [d])
    | (db1, some e) => (done.foldl (fun acc dd => acc.removeFromIndexes dd) db1, some e)

/-- `_insertMultipleDocsInCache(preparedDocs)`. -/
def MemoryDB.insertMultipleDocsInCache (db : MemoryDB) (docs : List Value) :
    MemoryDB × Option DBError :=
  MemoryDB.insertMultiAux db docs []

/-- Index creation options (`IndexOptions` of the interfaces file). -/
structure IndexOptions where
  fieldName : String
  unique : Bool
  sparse : Bool
  expireAfterSeconds : Option Int
deriving DecidableEq

/-- `ensureIndex(options)`: a missing field name fails; an existing
index for the field is returned unchanged (nothing is rebuilt and the
TTL registry is untouched); otherwise a new index is built from all
current data — on failure the half-built index is discarded (while a
TTL registration made before the build is left behind, as in the
source). -/
def MemoryDB.ensureIndex (db : MemoryDB) (opts : IndexOptions) : MemoryDB × Option DBError :=
  if opts.fieldName = "" then (db, some .missingFieldName)
  else if (assocFind db.indexes opts.fieldName).isSome then (db, none)
  else
    let idx0 := Index.make opts.fieldName opts.unique opts.sparse
    let ttl1 := match opts.expireAfterSeconds with
                | some s => db.ttlIndexes ++ [(opts.fieldName, s)]
                | none => db.ttlIndexes
    match idx0.insertMany db.getAllData with
    | (idx1, none) =>
      ({ indexes := db.indexes ++ [(opts.fieldName, idx1)], ttlIndexes := ttl1 }, none)
    | (_, some e) => ({ indexes := db.indexes, ttlIndexes := ttl1 }, some e)

/-- `removeIndex(fieldName)`: unconditionally delete the named index
(the source places no guard on `_id`). -/
def MemoryDB.removeIndex (db : MemoryDB) (fieldName : String) : MemoryDB :=
  { db with indexes := db.indexes.filter (fun p => p.1 ≠ fieldName) }

/-- Is a query value a basic-match scalar (string, number, boolean,
date or null)? -/
def isScalarQueryValue : Value → Bool
  | .vstr _ => true
  | .vnum _ => true
  | .vbool _ => true
  | .vdate _ => true
  | .vnull => true
  | _ => false

/-- Does a query value carry the given operator property? -/
def hasOpKey (v : Value) (k : String) : Bool :=
  match v with
  | .vobj fs => (objGet fs k).isSome
  | _ => false

/-- Step 1 of `getCandidates`: pick at most one index — first usable
basic match, then `$in`, then a comparison range; fall back to all the
data (spec §4.5). -/
def selectCandidates (db : MemoryDB) (q : Value) : List Value :=
  match q with
  | .vobj qfs =>
    let indexNames := db.indexes.map (fun p => p.1)
    let basicUsable :=
      ((qfs.filter (fun p => isScalarQueryValue p.2)).map (fun p => p.1)).filter
        (fun k => indexNames.contains k)
    (match basicUsable.head? with
     | some k =>
       (match assocFind db.indexes k, objGet qfs k with
        | some idx, some v => idx.getMatching v
        | _, _ => [])
     | none =>
       let inUsable :=
         ((qfs.filter (fun p => hasOpKey p.2 "$in")).map (fun p => p.1)).filter
           (fun k => indexNames.contains k)
       (match inUsable.head? with
        | some k =>
          (match assocFind db.indexes k, objGet qfs k with
           | some idx, some (.vobj ofs) =>
             (match objGet ofs "$in" with
              | some arr => idx.getMatching arr
              | none => [])
           | _, _ => [])
        | none =>
          let cmpUsable :=
            ((qfs.filter (fun p =>
                hasOpKey p.2 "$lt" || hasOpKey p.2 "$lte" ||
                hasOpKey p.2 "$gt" || hasOpKey p.2 "$gte")).map (fun p => p.1)).filter
              (fun k => indexNames.contains k)
          (match cmpUsable.head? with
           | some k =>
             (match assocFind db.indexes k, objGet qfs k with
              | some idx, some bounds => treeBetweenBounds bounds idx.tree
              | _, _ => [])
           | none => db.getAllData)))
  | _ => db.getAllData

/-- The `valid` flag of the TTL check in `getCandidates`, negated: a
document is expired when some TTL-registered field holds a timestamp
whose value plus `expireAfterSeconds` seconds is strictly below `now`
(`Date.now() > doc[i].getTime() + ttl * 1000`; the field is read as a
direct property, not a dotted path, as in the source). -/
def isExpiredFold (ttl : List (String × Int)) (now : Int) (d : Value) : Bool :=
  ttl.foldl (fun invalid p =>
    match d with
    | .vobj fs =>
      (match objGet fs p.1 with
       | some (.vdate t) => if now > t + p.2 * 1000 then true else invalid
       | _ => invalid)
    | _ => invalid) false

/-- Step 2 of `getCandidates` when stale documents expire: split the
candidates into the valid ones (in order) and the `_id`s of the expired
ones (in order), for which per-document remove tasks are then run. -/
def expireSplit (ttl : List (String × Int)) (now : Int) : List Value → List Value × List Value
  | [] => ([], [])
  | d :: rest =>
    let r := expireSplit ttl now rest
    if isExpiredFold ttl now d then (r.1, docIdOf d :: r.2)
    else (d :: r.1, r.2)

/-- The candidate-walk of `_remove`: remove every match (the first only
unless `multi`) from every index, counting removals. -/
def MemoryDB.removeCoreLoop (db : MemoryDB) (q : Value) (multi : Bool)
    (docs : List Value) (numRemoved : Nat) : MemoryDB × Nat :=
  match docs with
  | [] => (db, numRemoved)
  | d :: rest =>
    if matchQ d q && (multi || numRemoved == 0) then
      MemoryDB.removeCoreLoop (db.removeFromIndexes d) q multi rest (numRemoved + 1)
    else MemoryDB.removeCoreLoop db q multi rest numRemoved

/-- `_remove(query, {multi})`: candidates are fetched with
`dontExpireStaleDocs = true`, so no expiry pass runs here. -/
def MemoryDB.removeCore (db : MemoryDB) (q : Value) (multi : Bool) : MemoryDB × Nat :=
  MemoryDB.removeCoreLoop db q multi (selectCandidates db q) 0

/-- The cascaded `_remove({_id}, {})` tasks run for expired documents. -/
def MemoryDB.expireRemoves (db : MemoryDB) (ids : List Value) : MemoryDB :=
  ids.foldl (fun acc i => (acc.removeCore (.vobj [("_id", i)]) false).1) db

/-- `getCandidates(query, dontExpireStaleDocs)` at time `now`: the
candidate documents passed on, and the store after the cascaded removes
of expired documents. -/
def MemoryDB.getCandidates (db : MemoryDB) (q : Value) (dontExpire : Bool) (now : Int) :
    List Value × MemoryDB :=
  let docs := selectCandidates db q
  if dontExpire then (docs, db)
  else
    let s := expireSplit db.ttlIndexes now docs
    (s.1, db.expireRemoves s.2)

/-! ## Cursor / query engine (`src/cursor`, provided as source). -/

/-- The consistency walk of `Cursor.project`: `action` starts undefined
and every non-`_id` projection value must agree with it. -/
def projActionWalk (a : Option Int) : List (String × Int) → Bool
  | [] => true
  | (_, v) :: rest =>
    match a with
    | none => projActionWalk (some v) rest
    | some x => if v ≠ x then false else projActionWalk (some v) rest

/-- Projection of one candidate: pick-type (`action = 1`) populates a
fresh object via `$set` with each included path (omitting undefined
reads); otherwise omit-type applies `$unset` for each named path; then
`_id` is copied from the candidate or deleted according to `keepId`. -/
def projectOneDoc (keepId : Bool) (action : Option Int) (keys : List (String × Int))
    (cand : Value) : Value :=
  let toPush :=
    if action = some 1 then
      keys.foldl (fun acc p =>
        let v := getDotValue cand p.1
        if v = .vundef then acc else setDot acc p.1 v) (.vobj [])
    else
      keys.foldl (fun acc p => unsetDot acc p.1) cand
  if keepId then
    match cand with
    | .vobj cfs =>
      (match objGet cfs "_id" with
       | some idv =>
         (match toPush with
          | .vobj tfs => .vobj (objSet tfs "_id" idv)
          | v => v)
       | none => toPush)
    | _ => toPush
  else
    match toPush with
    | .vobj tfs => .vobj (objDelete tfs "_id")
    | v => v

/-- `Cursor.project(candidates)`: an empty projection returns the
candidates unchanged; `_id` is kept unless the projection carries
`_id: 0`; mixing differing actions on the remaining keys fails with
*InconsistentProjection*. -/
def projectDocs (proj : List (String × Int)) (candidates : List Value) :
    Except DBError (List Value) :=
  if proj.isEmpty then .ok candidates
  else
    let keepId : Bool := !(decide (assocFind proj "_id" = some 0))
    let keys := proj.filter (fun p => p.1 ≠ "_id")
    if projActionWalk none keys then
      .ok (candidates.map (projectOneDoc keepId ((keys.head?).map (fun p => p.2)) keys))
    else .error .inconsistentProjection

/-- `self._skip && self._skip > skipped` of the `_exec` filter loop. -/
def skipGuard (skp : Option Nat) (skipped : Nat) : Bool :=
  match skp with
  | some s => decide (s ≠ 0) && decide (skipped < s)
  | none => false

/-- `self._limit && self._limit <= added` of the `_exec` filter loop. -/
def limitReached (lim : Option Nat) (added : Nat) : Bool :=
  match lim with
  | some l => decide (l ≠ 0) && decide (l ≤ added)
  | none => false

/-- The candidate walk of `Cursor._exec` when no sort is set: skip and
limit are applied during the filter, with early termination on limit. -/
def execLoop (q : Value) (lim skp : Option Nat) :
    List Value → Nat → Nat → List Value
  | [], _, _ => []
  | d :: ds, skipped, added =>
    if matchQ d q then
      if skipGuard skp skipped then execLoop q lim skp ds (skipped + 1) added
      else if limitReached lim (added + 1) then [d]
      else d :: execLoop q lim skp ds skipped (added + 1)
    else execLoop q lim skp ds skipped added

/-- `-1 / 0 / 1` of a comparison, as returned by `compareThings`. -/
def ordToInt : Ordering → Int
  | .lt => -1
  | .eq => 0
  | .gt => 1

/-- The sort comparator of `Cursor._exec`: criteria in declaration
order, each `direction * compareThings(getDotValue a key, getDotValue b
key)`, first non-zero wins. -/
def critCompare (crit : List (String × Int)) (a b : Value) : Int :=
  match crit with
  | [] => 0
  | (k, dir) :: rest =>
    let c := dir * ordToInt (compareThings (getDotValue a k) (getDotValue b k))
    if c ≠ 0 then c else critCompare rest a b

/-- Stable insertion of an element into a sorted prefix: the element
goes before the first strictly-greater entry, after equal ones. -/
def sortPush (f : Value → Value → Int) (x : Value) : List Value → List Value
  | [] => [x]
  | y :: ys => if f y x > 0 then x :: y :: ys else y :: sortPush f x ys

/-- Stable comparator sort (the guaranteed-stable `Array.prototype.sort`
used by the cursor), as a left-to-right insertion sort. -/
def jsStableSort (f : Value → Value → Int) (l : List Value) : List Value :=
  l.foldl (fun acc x => sortPush f x acc) []

/-- A cursor: query plus optional limit, skip, sort criteria and
projection. -/
structure CursorS where
  query : Value
  lim : Option Nat
  skp : Option Nat
  srt : Option (List (String × Int))
  proj : List (String × Int)
deriving DecidableEq

/-- `Cursor._exec` on a candidate list: filter (with inline skip/limit
when no sort is set), else collect all matches, sort stably and slice
`[skip, skip+limit)` (with `limit = self._limit || res.length` and
`skip = self._skip || 0`); then apply the projection. -/
def cursorExecOn (cur : CursorS) (candidates : List Value) : Except DBError (List Value) :=
  let res :=
    match cur.srt with
    | none => execLoop cur.query cur.lim cur.skp candidates 0 0
    | some crit =>
      let allMatches := candidates.filter (fun d => matchQ d cur.query)
      let sorted := jsStableSort (critCompare crit) allMatches
      let limit := match cur.lim with
                   | some l => if l = 0 then sorted.length else l
                   | none => sorted.length
      let skip := match cur.skp with
                  | some s => s
                  | none => 0
      (sorted.drop skip).take limit
  projectDocs cur.proj res

/-- Cursor execution against the store: candidates from `getCandidates`
(with the expiry pass), then `_exec`'s processing. -/
def MemoryDB.cursorExec (db : MemoryDB) (cur : CursorS) (now : Int) :
    Except DBError (List Value) × MemoryDB :=
  match db.getCandidates cur.query false now with
  | (candidates, db1) => (cursorExecOn cur candidates, db1)

/-- `find(query, projection)`: a plain cursor whose post-processor deep
copies every result document. -/
def MemoryDB.findCore (db : MemoryDB) (q : Value) (proj : List (String × Int)) (now : Int) :
    Except DBError (List Value) × MemoryDB :=
  match db.cursorExec ⟨q, none, none, none, proj⟩ now with
  | (.ok docs, db1) => (.ok (docs.map deepCopy), db1)
  | (.error e, db1) => (.error e, db1)

/-- `findOne(query, projection)`: a cursor with `limit(1)` whose
post-processor yields a deep copy of the single document, or `null`
otherwise. -/
def MemoryDB.findOneCore (db : MemoryDB) (q : Value) (proj : List (String × Int)) (now : Int) :
    Except DBError Value × MemoryDB :=
  match db.cursorExec ⟨q, some 1, none, none, proj⟩ now with
  | (.ok [d], db1) => (.ok (deepCopy d), db1)
  | (.ok _, db1) => (.ok .vnull, db1)
  | (.error e, db1) => (.error e, db1)

/-- Does the document carry a defined property `k` (JavaScript
`doc[k] !== undefined`)? -/
def hasDefined (d : Value) (k : String) : Bool :=
  match d with
  | .vobj fs =>
    (match objGet fs k with
     | some v => decide (v ≠ .vundef)
     | none => false)
  | _ => false

/-- `prepareDocumentForInsertion` for a single document: deep copy,
assign a fresh `_id` when absent, validate with `checkObject`.
(Timestamp auto-injection is out of the spec's scope, §1, and `_id`
generation is an external random source: the fresh id is a parameter.) -/
def MemoryDB.prepareDocOne (doc : Value) (newId : String) : Except DBError Value :=
  let d := deepCopy doc
  let d1 := if hasDefined d "_id" then d
            else match d with
                 | .vobj fs => .vobj (objSet fs "_id" (.vstr newId))
                 | v => v
  if checkObjectOk d1 then .ok d1 else .error .invalidDocument

/-- `_insert` for a single document: prepare, add to all indexes (with
rollback on failure), return a deep copy of the stored document. -/
def MemoryDB.insertCore (db : MemoryDB) (doc : Value) (newId : String) :
    MemoryDB × Except DBError Value :=
  match MemoryDB.prepareDocOne doc newId with
  | .error e => (db, .error e)
  | .ok d =>
    match db.addToIndexes d with
    | (db1, none) => (db1, .ok (deepCopy d))
    | (db1, some e) => (db1, .error e)

/-- Options of `update` (`{multi, upsert, returnUpdatedDocs}`). -/
structure UpdateOpts where
  multi : Bool
  upsert : Bool
  returnUpdatedDocs : Bool
deriving DecidableEq

/-- The `updated` component of an update report: `undefined`, a single
document, or an array of documents. -/
inductive UpdatedField : Type where
  | undef : UpdatedField
  | one : Value → UpdatedField
  | many : List Value → UpdatedField
deriving DecidableEq

/-- The update report `{numAffected, upsert, updated}`. -/
structure UpdateResult where
  numAffected : Nat
  upsert : Bool
  updated : UpdatedField
deriving DecidableEq

/-- The modification-collection loop of `_update`: for every candidate
matching the query (the first only unless `multi`), pair it with
`modify(candidate, updateQuery)`; a `modify` error fails the whole
operation before any index is touched. -/
def MemoryDB.updateMods (q upd : Value) (multi : Bool) :
    List Value → Nat → Except DBError (List (Value × Value))
  | [], _ => .ok []
  | d :: rest, numReplaced =>
    if matchQ d q && (multi || numReplaced == 0) then
      match Model.modify d upd with
      | .error e => .error e
      | .ok nd =>
        (match MemoryDB.updateMods q upd multi rest (numReplaced + 1) with
         | .ok ms => .ok ((d, nd) :: ms)
         | .error e => .error e)
    else MemoryDB.updateMods q upd multi rest numReplaced

/-- `_update(query, updateQuery, options)`: when `upsert` is set and an
internal limit-1 cursor finds no match, insert a document built from
the update query (directly when it has no modifiers, else by applying
the modifiers to an operator-stripped copy of the find query) and
report `{numAffected: 1, upsert: true, updated: newDoc}`.  Otherwise
collect the modifications, commit them to every index as a batch and
report `{numAffected, upsert, updated}` — `updated` being the deep
copies of the new documents (the first one unless `multi`) when
`returnUpdatedDocs`, else undefined, and `upsert` being the option
value as destructured from `options`. -/
def MemoryDB.updateCore (db : MemoryDB) (q upd : Value) (opts : UpdateOpts)
    (newId : String) (now : Int) : MemoryDB × Except DBError UpdateResult :=
  let c0 := db.getCandidates q false now
  let found := (execLoop q (some 1) none c0.1 0 0).length == 1
  if opts.upsert && !found then
    match (if checkObjectOk upd then .ok upd else Model.modify (deepCopyStrict q) upd) with
    | .error e => (c0.2, .error e)
    | .ok tbi =>
      (match c0.2.insertCore tbi newId with
       | (db1, .ok newDoc) => (db1, .ok ⟨1, true, .one newDoc⟩)
       | (db1, .error e) => (db1, .error e))
  else
    match c0.2.getCandidates q false now with
    | (candidates, db1) =>
      match MemoryDB.updateMods q upd opts.multi candidates 0 with
      | .error e => (db1, .error e)
      | .ok mods =>
        match db1.updateIndexes mods with
        | (db2, some e) => (db2, .error e)
        | (db2, none) =>
          if !opts.returnUpdatedDocs then
            (db2, .ok ⟨mods.length, opts.upsert, .undef⟩)
          else
            let dc := mods.map (fun p => deepCopy p.2)
            if opts.multi then (db2, .ok ⟨mods.length, opts.upsert, .many dc⟩)
            else
              match dc.head? with
              | some d0 => (db2, .ok ⟨mods.length, opts.upsert, .one d0⟩)
              | none => (db2, .ok ⟨mods.length, opts.upsert, .undef⟩)

/-! ## Predicates and concrete data used by the verification. -/

/-- A document is absent from every bucket of a tree (the model of a
freshly allocated JavaScript object, never pointer-equal to a stored
one). -/
def FreshInTree (t : IdxTree) (d : Value) : Prop :=
  ∀ nd ∈ t, d ∉ nd.2

/-- Every index tree of the store is well-formed. -/
def DBWF (db : MemoryDB) : Prop :=
  ∀ p ∈ db.indexes, TreeWF p.2.tree

/-- A document absent from every bucket of every index of the store. -/
def FreshDoc (db : MemoryDB) (d : Value) : Prop :=
  ∀ p ∈ db.indexes, FreshInTree p.2.tree d

/-- Every entry of an index tree is stored under the document's own
`_id` value (the state the `_id` index is kept in by the store). -/
def IdKeyConsistent (t : IdxTree) : Prop :=
  ∀ nd ∈ t, ∀ d ∈ nd.2, getDotValue d "_id" = nd.1

/-- Claim-side expiry predicate: a document is expired exactly when some
TTL-configured field holds a timestamp whose value plus
`expireAfterSeconds` seconds is strictly less than `now`. -/
def expiredSpec (ttl : List (String × Int)) (now : Int) (d : Value) : Bool :=
  ttl.any (fun p =>
    match d with
    | .vobj fs =>
      (match objGet fs p.1 with
       | some (.vdate t) => decide (t + p.2 * 1000 < now)
       | _ => false)
    | _ => false)

/-- The projection map as the amended claim describes it: `null` *and
arrays* map to `"$null"`, strings, numbers and booleans get their type
tag, and the remaining values (objects, timestamps, undefined) map to
themselves. -/
def projectForUniqueAmended (elt : Value) : Value :=
  match elt with
  | .vnull => .vstr "$null"
  | .varr _ => .vstr "$null"
  | .vstr s => .vstr ("$string" ++ s)
  | .vnum n => .vstr ("$number" ++ toString n)
  | .vbool b => .vstr ("$boolean" ++ (if b then "true" else "false"))
  | v => v

/-- Sample documents of the spec's sort/skip/limit scenario (§8). -/
def sortDoc1 : Value := .vobj [("_id", .vstr "1"), ("n", .vnum 3)]

/-- Second sample document of the sort scenario. -/
def sortDoc2 : Value := .vobj [("_id", .vstr "2"), ("n", .vnum 1)]

/-- Third sample document of the sort scenario. -/
def sortDoc3 : Value := .vobj [("_id", .vstr "3"), ("n", .vnum 2)]

/-- The store holding the three sort-scenario documents, built through
the insertion path. -/
def sortDB : MemoryDB :=
  (((MemoryDB.empty.insertCore sortDoc1 "x1").1.insertCore sortDoc2 "x2").1.insertCore
    sortDoc3 "x3").1

/-- A store holding the single document `{_id:"a", x:1}`. -/
def oneDocDB : MemoryDB :=
  (MemoryDB.empty.insertCore (.vobj [("_id", .vstr "a"), ("x", .vnum 1)]) "za").1

/-- `{_id:"1", a:1, b:1}` of the failed-update scenario. -/
def updDoc1 : Value := .vobj [("_id", .vstr "1"), ("a", .vnum 1), ("b", .vnum 1)]

/-- `{_id:"2", a:1, b:2}` of the failed-update scenario. -/
def updDoc2 : Value := .vobj [("_id", .vstr "2"), ("a", .vnum 1), ("b", .vnum 2)]

/-- `{_id:"1", a:1, b:2}`: `updDoc1` with `b` changed to the value held
by `updDoc2`, so committing it violates the unique index on `b`. -/
def updDoc1b : Value := .vobj [("_id", .vstr "1"), ("a", .vnum 1), ("b", .vnum 2)]

/-- A store with a non-unique index on `a`, a unique index on `b`, and
the two scenario documents — built through `ensureIndex` and the
insertion path. -/
def updDB : MemoryDB :=
  ((((MemoryDB.empty.ensureIndex ⟨"a", false, false, none⟩).1.ensureIndex
      ⟨"b", true, false, none⟩).1.insertCore updDoc1 "y1").1.insertCore updDoc2 "y2").1

/-- `{_id:"a", t:[null, [1]]}`: an array-keyed document whose array
element projects to the same tag as `null`. -/
def arrKeyDoc : Value := .vobj [("_id", .vstr "a"), ("t", .varr [.vnull, .varr [.vnum 1]])]

/-- An empty non-unique index on `t`. -/
def arrKeyIdx : Index := Index.make "t" false false

/-- `{_id:"x", a:5, b:6}`, the projection sample document. -/
def projDoc : Value := .vobj [("_id", .vstr "x"), ("a", .vnum 5), ("b", .vnum 6)]

/-- A unique index on `b` holding `{_id:"1", b:1}` and `{_id:"2", b:2}`. -/
def uniqIdxB : Index :=
  ⟨"b", true, false,
    [(.vnum 1, [.vobj [("_id", .vstr "1"), ("b", .vnum 1)]]),
     (.vnum 2, [.vobj [("_id", .vstr "2"), ("b", .vnum 2)]])]⟩

/-- `{_id:"1", b:1}`, resident in `uniqIdxB`. -/
def uniqOldDoc : Value := .vobj [("_id", .vstr "1"), ("b", .vnum 1)]

/-- `{_id:"1", b:2}`: its `b` collides with the other resident. -/
def uniqNewDoc : Value := .vobj [("_id", .vstr "1"), ("b", .vnum 2)]

/-! ## Theorems.  First: laws of the total order. -/

theorem natCmp_eq_iff {a b : Nat} : natCmp a b = .eq ↔ a = b := by
  unfold natCmp; split_ifs <;> simp_all <;> omega

theorem natCmp_lt_iff {a b : Nat} : natCmp a b = .lt ↔ a < b := by
  unfold natCmp; split_ifs <;> simp_all <;> omega

theorem natCmp_gt_iff {a b : Nat} : natCmp a b = .gt ↔ b < a := by
  unfold natCmp; split_ifs <;> simp_all <;> omega

theorem natCmp_swap (a b : Nat) : natCmp a b = (natCmp b a).swap := by
  unfold natCmp
  split_ifs with h1 h2 h3 h4 h3 h4 <;> first
  | rfl
  | omega
  | (exfalso; omega)

theorem intCmp_eq_iff {a b : Int} : intCmp a b = .eq ↔ a = b := by
  unfold intCmp
  split_ifs with h1 h2
  · constructor
    · intro h; exact absurd h (by decide)
    · intro h; omega
  · simp [h2]
  · constructor
    · intro h; exact absurd h (by decide)
    · intro h; exact absurd h h2

theorem intCmp_lt_iff {a b : Int} : intCmp a b = .lt ↔ a < b := by
  unfold intCmp
  split_ifs with h1 h2
  · simp [h1]
  · constructor
    · intro h; exact absurd h (by decide)
    · intro h; exact absurd h h1
  · constructor
    · intro h; exact absurd h (by decide)
    · intro h; exact absurd h h1

theorem intCmp_gt_iff {a b : Int} : intCmp a b = .gt ↔ b < a := by
  unfold intCmp
  split_ifs with h1 h2
  · constructor
    · intro h; exact absurd h (by decide)
    · intro h; omega
  · constructor
    · intro h; exact absurd h (by decide)
    · intro h; omega
  · constructor
    · intro _; omega
    · intro _; rfl

theorem intCmp_swap (a b : Int) : intCmp a b = (intCmp b a).swap := by
  unfold intCmp
  split_ifs with h1 h2 h3 h4 h3 h4 <;> first
  | rfl
  | omega
  | (exfalso; omega)

theorem boolCmp_eq_iff {a b : Bool} : boolCmp a b = .eq ↔ a = b := by
  cases a <;> cases b <;> decide

theorem boolCmp_swap (a b : Bool) : boolCmp a b = (boolCmp b a).swap := by
  cases a <;> cases b <;> decide

theorem boolCmp_lt_trans {a b c : Bool} (h1 : boolCmp a b = .lt) (h2 : boolCmp b c = .lt) :
    boolCmp a c = .lt := by
  cases a <;> cases b <;> cases c <;> simp_all [boolCmp]

theorem charListCmp_eq_iff : ∀ {a b : List Char}, charListCmp a b = .eq ↔ a = b
  | [], [] => by simp [charListCmp]
  | [], _ :: _ => by simp [charListCmp]
  | _ :: _, [] => by simp [charListCmp]
  | c :: cs, d :: ds => by
    rw [charListCmp]
    rcases hc : natCmp c.toNat d.toNat with _ | _ | _
    · simp only []
      constructor
      · intro h; exact absurd h (by decide)
      · rintro ⟨⟩
        rw [natCmp_eq_iff.mpr rfl] at hc
        exact absurd hc (by decide)
    · have hcd : c = d := Char.eq_of_val_eq (UInt32.ext (natCmp_eq_iff.mp hc))
      simp [hcd, charListCmp_eq_iff]
    · simp only []
      constructor
      · intro h; exact absurd h (by decide)
      · rintro ⟨⟩
        rw [natCmp_eq_iff.mpr rfl] at hc
        exact absurd hc (by decide)

theorem charListCmp_swap : ∀ (a b : List Char), charListCmp a b = (charListCmp b a).swap
  | [], [] => by decide
  | [], _ :: _ => by simp [charListCmp, Ordering.swap]
  | _ :: _, [] => by simp [charListCmp, Ordering.swap]
  | c :: cs, d :: ds => by
    rw [charListCmp, charListCmp, natCmp_swap]
    rcases natCmp d.toNat c.toNat with _ | _ | _ <;>
      simp [Ordering.swap, charListCmp_swap cs ds]

theorem charListCmp_lt_trans :
    ∀ {a b c : List Char}, charListCmp a b = .lt → charListCmp b c = .lt →
      charListCmp a c = .lt
  | [], [], _, h1, _ => by simp [charListCmp] at h1
  | [], _ :: _, [], _, h2 => by simp [charListCmp] at h2
  | [], _ :: _, _ :: _, _, _ => by simp [charListCmp]
  | _ :: _, [], _, h1, _ => by simp [charListCmp] at h1
  | _ :: _, _ :: _, [], _, h2 => by simp [charListCmp] at h2
  | x :: xs, y :: ys, z :: zs, h1, h2 => by
    rw [charListCmp] at h1 h2 ⊢
    rcases hxy : natCmp x.toNat y.toNat with _ | _ | _ <;> rw [hxy] at h1
    · rcases hyz : natCmp y.toNat z.toNat with _ | _ | _ <;> rw [hyz] at h2
      · have h : natCmp x.toNat z.toNat = .lt :=
          natCmp_lt_iff.mpr (Nat.lt_trans (natCmp_lt_iff.mp hxy) (natCmp_lt_iff.mp hyz))
        rw [h]
      · have h : natCmp x.toNat z.toNat = .lt := by
          rw [← natCmp_eq_iff.mp hyz]; exact hxy
        rw [h]
      · simp at h2
    · have he := natCmp_eq_iff.mp hxy
      rcases hyz : natCmp y.toNat z.toNat with _ | _ | _ <;> rw [hyz] at h2
      · have h : natCmp x.toNat z.toNat = .lt := by rw [he]; exact hyz
        rw [h]
      · have h : natCmp x.toNat z.toNat = .eq := by rw [he]; exact hyz
        rw [h]
        exact charListCmp_lt_trans h1 h2
      · simp at h2
    · simp at h1

theorem strCmp_eq_iff {a b : String} : strCmp a b = .eq ↔ a = b := by
  unfold strCmp
  rw [charListCmp_eq_iff]
  constructor
  · exact String.ext
  · intro h; rw [h]

theorem strCmp_swap (a b : String) : strCmp a b = (strCmp b a).swap :=
  charListCmp_swap a.data b.data

theorem strCmp_lt_trans {a b c : String} (h1 : strCmp a b = .lt) (h2 : strCmp b c = .lt) :
    strCmp a c = .lt :=
  charListCmp_lt_trans h1 h2

mutual

theorem compareThings_eq_iff : (a b : Value) → (compareThings a b = .eq ↔ a = b)
  | .vundef, b => by cases b <;> simp [compareThings, natCmp, typeRank]
  | .vnull, b => by cases b <;> simp [compareThings, natCmp, typeRank]
  | .vnum x, b => by
    cases b <;> simp [compareThings, natCmp, typeRank, intCmp_eq_iff]
  | .vstr s, b => by
    cases b <;> simp [compareThings, natCmp, typeRank, strCmp_eq_iff]
  | .vbool x, b => by
    cases b <;> simp [compareThings, natCmp, typeRank, boolCmp_eq_iff]
  | .vdate x, b => by
    cases b <;> simp [compareThings, natCmp, typeRank, intCmp_eq_iff]
  | .varr l, b => by
    cases b
    case varr m => simpa [compareThings] using cmpValList_eq_iff l m
    all_goals simp [compareThings, natCmp, typeRank]
  | .vobj l, b => by
    cases b
    case vobj m => simpa [compareThings] using cmpFieldList_eq_iff l m
    all_goals simp [compareThings, natCmp, typeRank]

theorem cmpValList_eq_iff : (l m : List Value) → (cmpValList l m = .eq ↔ l = m)
  | [], [] => by simp [cmpValList]
  | [], _ :: _ => by simp [cmpValList]
  | _ :: _, [] => by simp [cmpValList]
  | x :: xs, y :: ys => by
    rw [cmpValList]
    rcases hc : compareThings x y with _ | _ | _
    · simp only [List.cons.injEq]
      constructor
      · intro h; exact absurd h (by decide)
      · rintro ⟨h1, _⟩
        rw [(compareThings_eq_iff x y).mpr h1] at hc
        exact absurd hc (by decide)
    · have hxy : x = y := (compareThings_eq_iff x y).mp hc
      simp [hxy, cmpValList_eq_iff xs ys]
    · simp only [List.cons.injEq]
      constructor
      · intro h; exact absurd h (by decide)
      · rintro ⟨h1, _⟩
        rw [(compareThings_eq_iff x y).mpr h1] at hc
        exact absurd hc (by decide)

theorem cmpFieldList_eq_iff :
    (l m : List (String × Value)) → (cmpFieldList l m = .eq ↔ l = m)
  | [], [] => by simp [cmpFieldList]
  | [], _ :: _ => by simp [cmpFieldList]
  | _ :: _, [] => by simp [cmpFieldList]
  | (k, v) :: xs, (k2, w) :: ys => by
    rw [cmpFieldList]
    rcases hk : strCmp k k2 with _ | _ | _
    · simp only [List.cons.injEq, Prod.mk.injEq]
      constructor
      · intro h; exact absurd h (by decide)
      · rintro ⟨⟨h1, _⟩, _⟩
        rw [strCmp_eq_iff.mpr h1] at hk
        exact absurd hk (by decide)
    · have hkk : k = k2 := strCmp_eq_iff.mp hk
      rcases hv : compareThings v w with _ | _ | _
      · simp only [List.cons.injEq, Prod.mk.injEq]
        constructor
        · intro h; exact absurd h (by decide)
        · rintro ⟨⟨_, h2⟩, _⟩
          rw [(compareThings_eq_iff v w).mpr h2] at hv
          exact absurd hv (by decide)
      · have hvw : v = w := (compareThings_eq_iff v w).mp hv
        simp [hkk, hvw, cmpFieldList_eq_iff xs ys]
      · simp only [List.cons.injEq, Prod.mk.injEq]
        constructor
        · intro h; exact absurd h (by decide)
        · rintro ⟨⟨_, h2⟩, _⟩
          rw [(compareThings_eq_iff v w).mpr h2] at hv
          exact absurd hv (by decide)
    · simp only [List.cons.injEq, Prod.mk.injEq]
      constructor
      · intro h; exact absurd h (by decide)
      · rintro ⟨⟨h1, _⟩, _⟩
        rw [strCmp_eq_iff.mpr h1] at hk
        exact absurd hk (by decide)

end

theorem compareThings_refl (a : Value) : compareThings a a = .eq :=
  (compareThings_eq_iff a a).mpr rfl

mutual

theorem compareThings_swap : (a b : Value) → compareThings a b = (compareThings b a).swap
  | .vundef, b => by cases b <;> simp [compareThings, natCmp, typeRank, Ordering.swap]
  | .vnull, b => by cases b <;> simp [compareThings, natCmp, typeRank, Ordering.swap]
  | .vnum x, b => by
    cases b
    case vnum y => exact intCmp_swap x y
    all_goals simp [compareThings, natCmp, typeRank, Ordering.swap]
  | .vstr s, b => by
    cases b
    case vstr t => exact strCmp_swap s t
    all_goals simp [compareThings, natCmp, typeRank, Ordering.swap]
  | .vbool x, b => by
    cases b
    case vbool y => exact boolCmp_swap x y
    all_goals simp [compareThings, natCmp, typeRank, Ordering.swap]
  | .vdate x, b => by
    cases b
    case vdate y => exact intCmp_swap x y
    all_goals simp [compareThings, natCmp, typeRank, Ordering.swap]
  | .varr l, b => by
    cases b
    case varr m => exact cmpValList_swap l m
    all_goals simp [compareThings, natCmp, typeRank, Ordering.swap]
  | .vobj l, b => by
    cases b
    case vobj m => exact cmpFieldList_swap l m
    all_goals simp [compareThings, natCmp, typeRank, Ordering.swap]

theorem cmpValList_swap : (l m : List Value) → cmpValList l m = (cmpValList m l).swap
  | [], [] => by decide
  | [], _ :: _ => by simp [cmpValList, Ordering.swap]
  | _ :: _, [] => by simp [cmpValList, Ordering.swap]
  | x :: xs, y :: ys => by
    rw [cmpValList, cmpValList, compareThings_swap x y]
    rcases compareThings y x with _ | _ | _ <;>
      simp [Ordering.swap, cmpValList_swap xs ys]

theorem cmpFieldList_swap :
    (l m : List (String × Value)) → cmpFieldList l m = (cmpFieldList m l).swap
  | [], [] => by decide
  | [], _ :: _ => by simp [cmpFieldList, Ordering.swap]
  | _ :: _, [] => by simp [cmpFieldList, Ordering.swap]
  | (k, v) :: xs, (k2, w) :: ys => by
    rw [cmpFieldList, cmpFieldList, strCmp_swap k k2, compareThings_swap v w]
    rcases strCmp k2 k with _ | _ | _ <;>
      rcases compareThings w v with _ | _ | _ <;>
        simp [Ordering.swap, cmpFieldList_swap xs ys]

end

theorem intCmp_lt_trans {a b c : Int} (h1 : intCmp a b = .lt) (h2 : intCmp b c = .lt) :
    intCmp a c = .lt :=
  intCmp_lt_iff.mpr (lt_trans (intCmp_lt_iff.mp h1) (intCmp_lt_iff.mp h2))

mutual

theorem compareThings_lt_trans :
    (a b c : Value) → compareThings a b = .lt → compareThings b c = .lt →
      compareThings a c = .lt
  | .vundef, b, c => by
    intro h1 h2
    cases b <;> cases c <;> simp_all [compareThings, typeRank, natCmp]
  | .vnull, b, c => by
    intro h1 h2
    cases b <;> cases c <;> simp_all [compareThings, typeRank, natCmp]
  | .vnum x, b, c => by
    intro h1 h2
    cases b <;> cases c <;>
      first
      | (exact intCmp_lt_trans h1 h2)
      | simp_all [compareThings, typeRank, natCmp]
  | .vstr s, b, c => by
    intro h1 h2
    cases b <;> cases c <;>
      first
      | (exact strCmp_lt_trans h1 h2)
      | simp_all [compareThings, typeRank, natCmp]
  | .vbool x, b, c => by
    intro h1 h2
    cases b <;> cases c <;>
      first
      | (exact boolCmp_lt_trans h1 h2)
      | simp_all [compareThings, typeRank, natCmp]
  | .vdate x, b, c => by
    intro h1 h2
    cases b <;> cases c <;>
      first
      | (exact intCmp_lt_trans h1 h2)
      | simp_all [compareThings, typeRank, natCmp]
  | .varr l, b, c => by
    intro h1 h2
    cases b <;> cases c <;>
      first
      | (exact cmpValList_lt_trans l _ _ h1 h2)
      | simp_all [compareThings, typeRank, natCmp]
  | .vobj l, b, c => by
    intro h1 h2
    cases b <;> cases c <;>
      first
      | (exact cmpFieldList_lt_trans l _ _ h1 h2)
      | simp_all [compareThings, typeRank, natCmp]

theorem cmpValList_lt_trans :
    (l m n : List Value) → cmpValList l m = .lt → cmpValList m n = .lt →
      cmpValList l n = .lt
  | [], [], _ => by intro h1 _; simp [cmpValList] at h1
  | [], _ :: _, [] => by intro _ h2; simp [cmpValList] at h2
  | [], _ :: _, _ :: _ => by intro _ _; simp [cmpValList]
  | _ :: _, [], _ => by intro h1 _; simp [cmpValList] at h1
  | _ :: _, _ :: _, [] => by intro _ h2; simp [cmpValList] at h2
  | x :: xs, y :: ys, z :: zs => by
    intro h1 h2
    rw [cmpValList] at h1 h2 ⊢
    rcases hxy : compareThings x y with _ | _ | _ <;> rw [hxy] at h1
    · rcases hyz : compareThings y z with _ | _ | _ <;> rw [hyz] at h2
      · rw [compareThings_lt_trans x y z hxy hyz]
      · have he := (compareThings_eq_iff y z).mp hyz
        rw [← he, hxy]
      · simp at h2
    · have he := (compareThings_eq_iff x y).mp hxy
      rcases hyz : compareThings y z with _ | _ | _ <;> rw [hyz] at h2
      · rw [he, hyz]
      · rw [he, hyz]
        exact cmpValList_lt_trans xs ys zs h1 h2
      · simp at h2
    · simp at h1

theorem cmpFieldList_lt_trans :
    (l m n : List (String × Value)) → cmpFieldList l m = .lt → cmpFieldList m n = .lt →
      cmpFieldList l n = .lt
  | [], [], _ => by intro h1 _; simp [cmpFieldList] at h1
  | [], _ :: _, [] => by intro _ h2; simp [cmpFieldList] at h2
  | [], _ :: _, _ :: _ => by intro _ _; simp [cmpFieldList]
  | _ :: _, [], _ => by intro h1 _; simp [cmpFieldList] at h1
  | _ :: _, _ :: _, [] => by intro _ h2; simp [cmpFieldList] at h2
  | (k1, v1) :: xs, (k2, v2) :: ys, (k3, v3) :: zs => by
    intro h1 h2
    rw [cmpFieldList] at h1 h2 ⊢
    rcases hk12 : strCmp k1 k2 with _ | _ | _ <;> rw [hk12] at h1
    · rcases hk23 : strCmp k2 k3 with _ | _ | _ <;> rw [hk23] at h2
      · rw [strCmp_lt_trans hk12 hk23]
      · have he := strCmp_eq_iff.mp hk23
        rw [← he, hk12]
      · simp at h2
    · have he12 := strCmp_eq_iff.mp hk12
      rcases hk23 : strCmp k2 k3 with _ | _ | _ <;> rw [hk23] at h2
      · rw [he12, hk23]
      · rw [he12, hk23]
        rcases hv12 : compareThings v1 v2 with _ | _ | _ <;> rw [hv12] at h1
        · rcases hv23 : compareThings v2 v3 with _ | _ | _ <;> rw [hv23] at h2
          · rw [compareThings_lt_trans v1 v2 v3 hv12 hv23]
          · have hev := (compareThings_eq_iff v2 v3).mp hv23
            rw [← hev, hv12]
          · simp at h2
        · have hev := (compareThings_eq_iff v1 v2).mp hv12
          rcases hv23 : compareThings v2 v3 with _ | _ | _ <;> rw [hv23] at h2
          · rw [hev, hv23]
          · rw [hev, hv23]
            exact cmpFieldList_lt_trans xs ys zs h1 h2
          · simp at h2
        · simp at h1
      · simp at h2
    · simp at h1

end

theorem compareThings_lt_ne {a b : Value} (h : compareThings a b = .lt) : a ≠ b := by
  intro he
  rw [he, compareThings_refl] at h
  exact Ordering.noConfusion h

theorem compareThings_gt_ne {a b : Value} (h : compareThings a b = .gt) : a ≠ b := by
  intro he
  rw [he, compareThings_refl] at h
  exact Ordering.noConfusion h

theorem compareThings_lt_asymm {a b : Value} (h : compareThings a b = .lt) :
    compareThings b a = .gt := by
  rw [compareThings_swap b a, h]; rfl

theorem compareThings_gt_asymm {a b : Value} (h : compareThings a b = .gt) :
    compareThings b a = .lt := by
  rw [compareThings_swap b a, h]; rfl

/-! ## Tree-level semantics: each operation's effect on `semAt`,
well-formedness preservation, and extensionality. -/

theorem TreeWF.tail {p : Value × List Value} {t : IdxTree} (h : TreeWF (p :: t)) :
    TreeWF t :=
  ⟨(List.pairwise_cons.mp h.1).2, fun nd hm => h.2 nd (List.mem_cons_of_mem p hm)⟩

theorem TreeWF.head_lt {p : Value × List Value} {t : IdxTree} (h : TreeWF (p :: t)) :
    ∀ nd ∈ t, compareThings p.1 nd.1 = .lt :=
  fun nd hm => (List.pairwise_cons.mp h.1).1 nd hm

theorem semAt_eq_nil {t : IdxTree} {q : Value} (h : ∀ nd ∈ t, nd.1 ≠ q) :
    semAt t q = [] := by
  induction t with
  | nil => rfl
  | cons p rest ih =>
    rw [semAt]
    rw [if_neg (h p (List.mem_cons_self p rest))]
    exact ih fun nd hm => h nd (List.mem_cons_of_mem p hm)

theorem semAt_mem_key {t : IdxTree} {q : Value} (h : semAt t q ≠ []) :
    ∃ nd ∈ t, nd.1 = q := by
  induction t with
  | nil => exact absurd rfl h
  | cons p rest ih =>
    rw [semAt] at h
    by_cases hp : p.1 = q
    · exact ⟨p, List.mem_cons_self p rest, hp⟩
    · rw [if_neg hp] at h
      obtain ⟨nd, hm, he⟩ := ih h
      exact ⟨nd, List.mem_cons_of_mem p hm, he⟩

theorem lt_head_notKey {p : Value × List Value} {t : IdxTree} {k : Value}
    (hlt : compareThings k p.1 = .lt) (hwf : TreeWF (p :: t)) :
    ∀ nd ∈ p :: t, nd.1 ≠ k := by
  intro nd hm
  rcases List.mem_cons.mp hm with h | h
  · rw [h]
    exact fun he => compareThings_lt_ne hlt he.symm
  · intro he
    have h2 := hwf.head_lt nd h
    rw [he] at h2
    rw [compareThings_swap] at hlt
    rw [h2] at hlt
    exact Ordering.noConfusion hlt

theorem treeInsert_ok_semAt {u : Bool} {k d : Value} {t t' : IdxTree}
    (hwf : TreeWF t) (h : treeInsert u k d t = .ok t') (q : Value) :
    semAt t' q = if q = k then semAt t k ++ [d] else semAt t q := by
  induction t generalizing t' with
  | nil =>
    rw [treeInsert] at h
    cases h
    by_cases hq : q = k
    · subst hq; simp [semAt]
    · simp [semAt, Ne.symm hq, hq]
  | cons p rest ih =>
    obtain ⟨k', ds⟩ := p
    rw [treeInsert] at h
    rcases hc : compareThings k k' with _ | _ | _ <;> rw [hc] at h
    · cases h
      have hnil : semAt ((k', ds) :: rest) k = [] :=
        semAt_eq_nil (lt_head_notKey hc hwf)
      by_cases hq : q = k
      · rw [if_pos hq, hq, hnil, semAt, if_pos rfl]; rfl
      · rw [if_neg hq, semAt, if_neg (fun he : k = q => hq he.symm)]
    · have hk : k = k' := (compareThings_eq_iff k k').mp hc
      cases u with
      | true => exact absurd h (by simp at h)
      | false =>
        rw [if_neg (by simp)] at h
        cases h
        by_cases hq : q = k
        · rw [if_pos hq, hq, semAt, semAt, ← hk, if_pos rfl, if_pos rfl]
        · rw [if_neg hq, semAt, semAt]
          rw [← hk]
          rw [if_neg (fun he : k = q => hq he.symm), if_neg (fun he : k = q => hq he.symm)]
    · rcases hrec : treeInsert u k d rest with e | t2
      · rw [hrec] at h; exact absurd h (by simp)
      · rw [hrec] at h
        cases h
        have hkk : k ≠ k' := compareThings_gt_ne hc
        have ihq := ih hwf.tail hrec
        by_cases hq : q = k
        · rw [if_pos hq, semAt, semAt, hq]
          rw [if_neg (fun he : k' = k => hkk he.symm), if_neg (fun he : k' = k => hkk he.symm)]
          rw [hq] at ihq
          rw [ihq, if_pos rfl]
        · rw [if_neg hq, semAt, semAt]
          by_cases hq2 : k' = q
          · rw [if_pos hq2, if_pos hq2]
          · rw [if_neg hq2, if_neg hq2, ihq, if_neg hq]

theorem treeInsert_error_iff {u : Bool} {k d : Value} {t : IdxTree} {e : DBError}
    (hwf : TreeWF t) :
    treeInsert u k d t = .error e ↔ (u = true ∧ semAt t k ≠ [] ∧ e = .uniqueViolated) := by
  induction t with
  | nil =>
    rw [treeInsert]
    simp [semAt]
  | cons p rest ih =>
    obtain ⟨k', ds⟩ := p
    rcases hc : compareThings k k' with _ | _ | _
    · have hstep : treeInsert u k d ((k', ds) :: rest) = .ok ((k, [d]) :: (k', ds) :: rest) := by
        rw [treeInsert, hc]
      have hnil : semAt ((k', ds) :: rest) k = [] :=
        semAt_eq_nil (lt_head_notKey hc hwf)
      rw [hstep, hnil]
      simp
    · have hk : k = k' := (compareThings_eq_iff k k').mp hc
      have hne : ds ≠ [] := (hwf.2 (k', ds) (List.mem_cons_self _ _)).1
      have hsem : semAt ((k', ds) :: rest) k = ds := by
        rw [semAt, if_pos hk.symm]
      cases u with
      | true =>
        have hstep : treeInsert true k d ((k', ds) :: rest) = .error .uniqueViolated := by
          simp [treeInsert, hc]
        rw [hstep, hsem]
        constructor
        · intro hcon
          injection hcon with he
          exact ⟨rfl, hne, he.symm⟩
        · rintro ⟨_, _, he⟩
          rw [he]
      | false =>
        have hstep : treeInsert false k d ((k', ds) :: rest) = .ok ((k', ds ++ [d]) :: rest) := by
          simp [treeInsert, hc]
        rw [hstep]
        simp
    · have hkk : k ≠ k' := compareThings_gt_ne hc
      have hsem : semAt ((k', ds) :: rest) k = semAt rest k := by
        rw [semAt, if_neg (fun he : k' = k => hkk he.symm)]
      rcases hrec : treeInsert u k d rest with e2 | t2
      · have hstep : treeInsert u k d ((k', ds) :: rest) = .error e2 := by
          rw [treeInsert, hc, hrec]
        rw [hstep, hsem]
        constructor
        · intro hcon
          injection hcon with he2
          subst he2
          exact (ih hwf.tail).mp hrec
        · intro h3
          have h4 := (ih hwf.tail).mpr h3
          rw [hrec] at h4
          exact h4
      · have hstep : treeInsert u k d ((k', ds) :: rest) = .ok ((k', ds) :: t2) := by
          rw [treeInsert, hc, hrec]
        rw [hstep, hsem]
        constructor
        · intro hcon
          exact absurd hcon (by simp)
        · intro h3
          have h4 := (ih hwf.tail).mpr h3
          rw [hrec] at h4
          exact absurd h4 (by simp)

theorem treeInsert_ok_keyOf {u : Bool} {k d : Value} {t t' : IdxTree}
    (h : treeInsert u k d t = .ok t') :
    ∀ nd ∈ t', nd.1 = k ∨ ∃ nd0 ∈ t, nd.1 = nd0.1 := by
  induction t generalizing t' with
  | nil =>
    rw [treeInsert] at h
    cases h
    intro nd hm
    rcases List.mem_cons.mp hm with h | h
    · left; rw [h]
    · cases h
  | cons p rest ih =>
    obtain ⟨k', ds⟩ := p
    rw [treeInsert] at h
    rcases hc : compareThings k k' with _ | _ | _ <;> rw [hc] at h
    · cases h
      intro nd hm
      rcases List.mem_cons.mp hm with h | h
      · left; rw [h]
      · right; exact ⟨nd, h, rfl⟩
    · cases u with
      | true => exact absurd h (by simp at h)
      | false =>
        rw [if_neg (by simp)] at h
        cases h
        intro nd hm
        rcases List.mem_cons.mp hm with h | h
        · right; exact ⟨(k', ds), List.mem_cons_self _ _, by rw [h]⟩
        · right; exact ⟨nd, List.mem_cons_of_mem _ h, rfl⟩
    · rcases hrec : treeInsert u k d rest with e | t2
      · rw [hrec] at h; exact absurd h (by simp)
      · rw [hrec] at h
        cases h
        intro nd hm
        rcases List.mem_cons.mp hm with h | h
        · right; exact ⟨(k', ds), List.mem_cons_self _ _, by rw [h]⟩
        · rcases ih hrec nd h with h2 | ⟨nd0, hm0, he0⟩
          · left; exact h2
          · right; exact ⟨nd0, List.mem_cons_of_mem _ hm0, he0⟩

theorem treeInsert_ok_WF {u : Bool} {k d : Value} {t t' : IdxTree}
    (hwf : TreeWF t) (hfresh : d ∉ semAt t k) (h : treeInsert u k d t = .ok t') :
    TreeWF t' := by
  induction t generalizing t' with
  | nil =>
    rw [treeInsert] at h
    cases h
    constructor
    · exact List.pairwise_singleton _ _
    · intro p hm
      rcases List.mem_cons.mp hm with h | h
      · rw [h]; exact ⟨by simp, by simp⟩
      · cases h
  | cons p rest ih =>
    obtain ⟨k', ds⟩ := p
    rw [treeInsert] at h
    rcases hc : compareThings k k' with _ | _ | _ <;> rw [hc] at h
    · cases h
      constructor
      · rw [List.pairwise_cons]
        constructor
        · intro nd hm
          rcases List.mem_cons.mp hm with h | h
          · rw [h]; exact hc
          · exact compareThings_lt_trans _ _ _ hc (hwf.head_lt nd h)
        · exact hwf.1
      · intro nd hm
        rcases List.mem_cons.mp hm with h | h
        · rw [h]; exact ⟨by simp, by simp⟩
        · exact hwf.2 nd h
    · have hk : k = k' := (compareThings_eq_iff k k').mp hc
      cases u with
      | true => exact absurd h (by simp at h)
      | false =>
        rw [if_neg (by simp)] at h
        cases h
        have hsem : semAt ((k', ds) :: rest) k = ds := by
          rw [semAt, if_pos hk.symm]
        rw [hsem] at hfresh
        constructor
        · rw [List.pairwise_cons]
          exact ⟨fun nd hm => hwf.head_lt nd hm, hwf.tail.1⟩
        · intro nd hm
          rcases List.mem_cons.mp hm with h | h
          · rw [h]
            refine ⟨by simp, ?_⟩
            have hnd := (hwf.2 (k', ds) (List.mem_cons_self _ _)).2
            rw [List.nodup_append]
            refine ⟨hnd, List.nodup_singleton _, ?_⟩
            intro x hx hx2
            rw [List.mem_singleton] at hx2
            subst hx2
            exact hfresh hx
          · exact hwf.2 nd (List.mem_cons_of_mem _ h)
    · have hkk : k ≠ k' := compareThings_gt_ne hc
      rcases hrec : treeInsert u k d rest with e | t2
      · rw [hrec] at h; exact absurd h (by simp)
      · rw [hrec] at h
        cases h
        have hsem : semAt ((k', ds) :: rest) k = semAt rest k := by
          rw [semAt, if_neg (fun he : k' = k => hkk he.symm)]
        rw [hsem] at hfresh
        have hwf2 := ih hwf.tail hfresh hrec
        constructor
        · rw [List.pairwise_cons]
          constructor
          · intro nd hm
            rcases treeInsert_ok_keyOf hrec nd hm with h2 | ⟨nd0, hm0, he0⟩
            · rw [h2]
              exact compareThings_gt_asymm hc
            · rw [he0]
              exact hwf.head_lt nd0 hm0
          · exact hwf2.1
        · intro nd hm
          rcases List.mem_cons.mp hm with h | h
          · rw [h]; exact hwf.2 (k', ds) (List.mem_cons_self _ _)
          · exact hwf2.2 nd h

theorem treeDelete_semAt {k d : Value} {t : IdxTree} (hwf : TreeWF t) (q : Value) :
    semAt (treeDelete k d t) q = if q = k then bucketDel d (semAt t k) else semAt t q := by
  induction t with
  | nil =>
    rw [treeDelete]
    by_cases hq : q = k
    · rw [if_pos hq, semAt]
      rfl
    · rw [if_neg hq]
  | cons p rest ih =>
    obtain ⟨k', ds⟩ := p
    rw [treeDelete]
    rcases hc : compareThings k k' with _ | _ | _
    · have hnil : semAt ((k', ds) :: rest) k = [] :=
        semAt_eq_nil (lt_head_notKey hc hwf)
      by_cases hq : q = k
      · rw [if_pos hq, hq, hnil]
        rfl
      · rw [if_neg hq]
    · have hk : k = k' := (compareThings_eq_iff k k').mp hc
      have hknotrest : semAt rest k = [] := by
        apply semAt_eq_nil
        intro nd hm he
        have h2 := hwf.head_lt nd hm
        rw [he, ← hk] at h2
        rw [compareThings_refl] at h2
        exact Ordering.noConfusion h2
      have hsem : semAt ((k', ds) :: rest) k = ds := by
        rw [semAt, if_pos hk.symm]
      by_cases hlen : 1 < ds.length
      · rw [if_pos hlen]
        by_cases hq : q = k
        · rw [if_pos hq, hq, hsem, semAt, if_pos hk.symm, bucketDel, if_pos hlen]
        · rw [if_neg hq, semAt, semAt,
            if_neg (fun he : k' = q => hq (he.symm.trans hk.symm)),
            if_neg (fun he : k' = q => hq (he.symm.trans hk.symm))]
      · rw [if_neg hlen]
        by_cases hq : q = k
        · rw [if_pos hq, hq, hsem, bucketDel, if_neg hlen, hknotrest]
        · rw [if_neg hq, semAt,
            if_neg (fun he : k' = q => hq (he.symm.trans hk.symm))]
    · have hkk : k ≠ k' := compareThings_gt_ne hc
      have hsem : semAt ((k', ds) :: rest) k = semAt rest k := by
        rw [semAt, if_neg (fun he : k' = k => hkk he.symm)]
      have ihq := ih hwf.tail
      by_cases hq : q = k
      · rw [if_pos hq, hq, hsem, semAt,
          if_neg (fun he : k' = k => hkk he.symm)]
        rw [hq] at ihq
        rw [ihq, if_pos rfl]
      · rw [if_neg hq, semAt, semAt]
        by_cases hq2 : k' = q
        · rw [if_pos hq2, if_pos hq2]
        · rw [if_neg hq2, if_neg hq2, ihq, if_neg hq]

theorem treeDelete_keyOf {k d : Value} {t : IdxTree} :
    ∀ nd ∈ treeDelete k d t, ∃ nd0 ∈ t, nd.1 = nd0.1 := by
  induction t with
  | nil => intro nd hm; cases hm
  | cons p rest ih =>
    obtain ⟨k', ds⟩ := p
    rw [treeDelete]
    rcases compareThings k k' with _ | _ | _
    · intro nd hm
      exact ⟨nd, hm, rfl⟩
    · by_cases hlen : 1 < ds.length
      · rw [if_pos hlen]
        intro nd hm
        rcases List.mem_cons.mp hm with h | h
        · exact ⟨(k', ds), List.mem_cons_self _ _, by rw [h]⟩
        · exact ⟨nd, List.mem_cons_of_mem _ h, rfl⟩
      · rw [if_neg hlen]
        intro nd hm
        exact ⟨nd, List.mem_cons_of_mem _ hm, rfl⟩
    · intro nd hm
      rcases List.mem_cons.mp hm with h | h
      · exact ⟨(k', ds), List.mem_cons_self _ _, by rw [h]⟩
      · obtain ⟨nd0, hm0, he0⟩ := ih nd h
        exact ⟨nd0, List.mem_cons_of_mem _ hm0, he0⟩

theorem treeDelete_WF {k d : Value} {t : IdxTree} (hwf : TreeWF t) :
    TreeWF (treeDelete k d t) := by
  induction t with
  | nil => exact hwf
  | cons p rest ih =>
    obtain ⟨k', ds⟩ := p
    rw [treeDelete]
    rcases compareThings k k' with _ | _ | _
    · exact hwf
    · by_cases hlen : 1 < ds.length
      · rw [if_pos hlen]
        constructor
        · rw [List.pairwise_cons]
          exact ⟨fun nd hm => hwf.head_lt nd hm, hwf.tail.1⟩
        · intro nd hm
          rcases List.mem_cons.mp hm with h | h
          · rw [h]
            have hb := hwf.2 (k', ds) (List.mem_cons_self _ _)
            constructor
            · intro hemp
              have hemp2 : ds.filter (fun x => x ≠ d) = [] := hemp
              have hcount : ∀ x ∈ ds, x = d := by
                intro x hx
                by_contra hne
                have hmem : x ∈ ds.filter (fun x => x ≠ d) := by
                  rw [List.mem_filter]
                  exact ⟨hx, by simpa using hne⟩
                rw [hemp2] at hmem
                cases hmem
              match ds, hlen with
              | x :: y :: rest2, _ =>
                have hx := hcount x (by simp)
                have hy := hcount y (by simp)
                have hnd := hb.2
                rw [hx, hy] at hnd
                simp at hnd
            · exact (hb.2).filter _
          · exact hwf.2 nd (List.mem_cons_of_mem _ h)
      · rw [if_neg hlen]
        exact hwf.tail
    · constructor
      · rw [List.pairwise_cons]
        constructor
        · intro nd hm
          obtain ⟨nd0, hm0, he0⟩ := treeDelete_keyOf nd hm
          rw [he0]
          exact hwf.head_lt nd0 hm0
        · exact (ih hwf.tail).1
      · intro nd hm
        rcases List.mem_cons.mp hm with h | h
        · rw [h]
          exact hwf.2 (k', ds) (List.mem_cons_self _ _)
        · exact (ih hwf.tail).2 nd h

theorem tree_ext {t t' : IdxTree} (hwf : TreeWF t) (hwf' : TreeWF t')
    (h : ∀ q, semAt t q = semAt t' q) : t = t' := by
  induction t generalizing t' with
  | nil =>
    cases t' with
    | nil => rfl
    | cons p' r' =>
      obtain ⟨k2, ds2⟩ := p'
      have h2 := h k2
      have h3 : semAt ((k2, ds2) :: r') k2 = ds2 := by rw [semAt, if_pos rfl]
      rw [h3] at h2
      exact absurd h2.symm (hwf'.2 (k2, ds2) (List.mem_cons_self _ _)).1
  | cons p rest ih =>
    obtain ⟨k, ds⟩ := p
    cases t' with
    | nil =>
      have h2 := h k
      have h3 : semAt ((k, ds) :: rest) k = ds := by rw [semAt, if_pos rfl]
      rw [h3] at h2
      exact absurd h2 (hwf.2 (k, ds) (List.mem_cons_self _ _)).1
    | cons p' r' =>
      obtain ⟨k2, ds2⟩ := p'
      have hkeq : k = k2 := by
        by_contra hne
        have h2 := h k
        rw [semAt, if_pos rfl, semAt, if_neg (fun he : k2 = k => hne he.symm)] at h2
        have hmem1 : ∃ nd ∈ r', nd.1 = k := by
          apply semAt_mem_key
          rw [← h2]
          exact (hwf.2 (k, ds) (List.mem_cons_self _ _)).1
        have h3 := h k2
        rw [semAt, if_neg (fun he : k = k2 => hne he), semAt, if_pos rfl] at h3
        have hmem2 : ∃ nd ∈ rest, nd.1 = k2 := by
          apply semAt_mem_key
          rw [h3]
          exact (hwf'.2 (k2, ds2) (List.mem_cons_self _ _)).1
        obtain ⟨nd1, hm1, he1⟩ := hmem1
        obtain ⟨nd2, hm2, he2⟩ := hmem2
        have l1 := hwf'.head_lt nd1 hm1
        rw [he1] at l1
        have l2 := hwf.head_lt nd2 hm2
        rw [he2] at l2
        rw [compareThings_swap k2 k, l2] at l1
        exact Ordering.noConfusion l1
      subst hkeq
      have hds : ds = ds2 := by
        have h2 := h k
        rw [semAt, if_pos rfl, semAt, if_pos rfl] at h2
        exact h2
      subst hds
      have htails : ∀ q, semAt rest q = semAt r' q := by
        intro q
        by_cases hq : k = q
        · subst hq
          rw [semAt_eq_nil, semAt_eq_nil]
          · intro nd hm he
            have l1 := hwf'.head_lt nd hm
            rw [he, compareThings_refl] at l1
            exact Ordering.noConfusion l1
          · intro nd hm he
            have l1 := hwf.head_lt nd hm
            rw [he, compareThings_refl] at l1
            exact Ordering.noConfusion l1
        · have h2 := h q
          rw [semAt, if_neg hq, semAt, if_neg hq] at h2
          exact h2
      rw [ih hwf.tail hwf'.tail htails]

theorem treeSearch_eq_semAt {k : Value} {t : IdxTree} (hwf : TreeWF t) :
    treeSearch k t = semAt t k := by
  induction t with
  | nil => rfl
  | cons p rest ih =>
    obtain ⟨k', ds⟩ := p
    rw [treeSearch]
    rcases hc : compareThings k k' with _ | _ | _
    · rw [semAt_eq_nil (lt_head_notKey hc hwf)]
    · have hk : k = k' := (compareThings_eq_iff k k').mp hc
      rw [semAt, if_pos hk.symm]
    · have hkk : k ≠ k' := compareThings_gt_ne hc
      rw [semAt, if_neg (fun he : k' = k => hkk he.symm)]
      exact ih hwf.tail

theorem uniqProjAux_sub {l : List Value} {seen : List Value} :
    ∀ x ∈ uniqProjAux l seen, x ∈ l := by
  induction l generalizing seen with
  | nil => intro x hx; cases hx
  | cons y ys ih =>
    intro x hx
    rw [uniqProjAux] at hx
    by_cases hm : projectForUnique y ∈ seen
    · rw [if_pos hm] at hx
      exact List.mem_cons_of_mem _ (ih x hx)
    · rw [if_neg hm] at hx
      rcases List.mem_cons.mp hx with h | h
      · rw [h]; exact List.mem_cons_self _ _
      · exact List.mem_cons_of_mem _ (ih x h)

theorem uniqProjAux_proj_notin {l : List Value} {seen : List Value} :
    ∀ x ∈ uniqProjAux l seen, projectForUnique x ∉ seen := by
  induction l generalizing seen with
  | nil => intro x hx; cases hx
  | cons y ys ih =>
    intro x hx
    rw [uniqProjAux] at hx
    by_cases hm : projectForUnique y ∈ seen
    · rw [if_pos hm] at hx
      exact ih x hx
    · rw [if_neg hm] at hx
      rcases List.mem_cons.mp hx with h | h
      · rw [h]; exact hm
      · intro hcon
        exact ih x h (List.mem_cons_of_mem _ hcon)

theorem uniqProjAux_nodup {l : List Value} {seen : List Value} :
    (uniqProjAux l seen).Nodup := by
  induction l generalizing seen with
  | nil => exact List.nodup_nil
  | cons y ys ih =>
    rw [uniqProjAux]
    by_cases hm : projectForUnique y ∈ seen
    · rw [if_pos hm]; exact ih
    · rw [if_neg hm]
      rw [List.nodup_cons]
      refine ⟨?_, ih⟩
      intro hcon
      exact uniqProjAux_proj_notin y hcon (List.mem_cons_self _ _)

theorem uniqProj_nodup {l : List Value} : (uniqProj l).Nodup :=
  uniqProjAux_nodup

theorem Index.docKeys_nodup (idx : Index) (doc : Value) : (idx.docKeys doc).Nodup := by
  rw [Index.docKeys]
  split_ifs
  · exact List.nodup_nil
  · rcases idx.keyOf doc with _ | _ | _ | _ | _ | _ | l | _ <;>
      first
      | exact uniqProj_nodup
      | exact List.nodup_singleton _

theorem bucketDel_append {d : Value} {l : List Value} (hfr : d ∉ l) :
    bucketDel d (l ++ [d]) = l := by
  rw [bucketDel]
  cases l with
  | nil => rfl
  | cons x xs =>
    rw [if_pos (by simp)]
    rw [List.filter_append]
    have h1 : (x :: xs).filter (fun y => y ≠ d) = x :: xs := by
      rw [List.filter_eq_self]
      intro a ha
      simp only [ne_eq, decide_eq_true_eq]
      intro he
      exact hfr (he ▸ ha)
    have h2 : [d].filter (fun y => y ≠ d) = [] := by simp
    rw [h1, h2, List.append_nil]

theorem bucketDel_singleton {d : Value} {l : List Value} (h : l = [d]) :
    bucketDel d l = [] := by
  rw [h, bucketDel]
  simp

theorem foldDelete_semAt {d : Value} {t : IdxTree} (hwf : TreeWF t)
    {ks : List Value} (hnd : ks.Nodup) (q : Value) :
    semAt (ks.foldl (fun acc kk => treeDelete kk d acc) t) q =
      if q ∈ ks then bucketDel d (semAt t q) else semAt t q := by
  induction ks generalizing t with
  | nil => simp
  | cons k rest ih =>
    rw [List.foldl_cons]
    have hnd2 := (List.nodup_cons.mp hnd).2
    have hknotin := (List.nodup_cons.mp hnd).1
    rw [ih (treeDelete_WF hwf) hnd2]
    by_cases hq : q = k
    · subst hq
      rw [if_neg (fun hc => hknotin hc), if_pos (List.mem_cons_self _ _)]
      rw [treeDelete_semAt hwf, if_pos rfl]
    · by_cases hq2 : q ∈ rest
      · rw [if_pos hq2, if_pos (List.mem_cons_of_mem _ hq2)]
        rw [treeDelete_semAt hwf, if_neg hq]
      · rw [if_neg hq2, if_neg (by simp [hq, hq2])]
        rw [treeDelete_semAt hwf, if_neg hq]

theorem foldDelete_WF {d : Value} {t : IdxTree} (hwf : TreeWF t) (ks : List Value) :
    TreeWF (ks.foldl (fun acc kk => treeDelete kk d acc) t) := by
  induction ks generalizing t with
  | nil => exact hwf
  | cons k rest ih => exact ih (treeDelete_WF hwf)

theorem insertKeysLoop_ok {u : Bool} {d : Value} {ks : List Value} {t t' : IdxTree}
    {done : List Value}
    (hwf : TreeWF t) (hnd : ks.Nodup) (hfr : ∀ k ∈ ks, d ∉ semAt t k)
    (h : insertKeysLoop u d ks t done = (t', none)) :
    TreeWF t' ∧ ∀ q, semAt t' q = semAt t q ++ (if q ∈ ks then [d] else []) := by
  induction ks generalizing t done with
  | nil =>
    rw [insertKeysLoop] at h
    cases h
    exact ⟨hwf, fun q => by simp⟩
  | cons k rest ih =>
    rw [insertKeysLoop] at h
    rcases hins : treeInsert u k d t with e | t1 <;> rw [hins] at h
    · exact absurd h (by simp)
    · have hfrk : d ∉ semAt t k := hfr k (List.mem_cons_self _ _)
      have hwf1 := treeInsert_ok_WF hwf hfrk hins
      have hsem1 := fun q => treeInsert_ok_semAt hwf hins q
      have hnd2 := (List.nodup_cons.mp hnd).2
      have hknotin := (List.nodup_cons.mp hnd).1
      have hfr1 : ∀ k2 ∈ rest, d ∉ semAt t1 k2 := by
        intro k2 hk2
        rw [hsem1 k2, if_neg (fun he : k2 = k => hknotin (he ▸ hk2))]
        exact hfr k2 (List.mem_cons_of_mem _ hk2)
      obtain ⟨hwf', hsem'⟩ := ih hwf1 hnd2 hfr1 h
      refine ⟨hwf', fun q => ?_⟩
      rw [hsem' q, hsem1 q]
      by_cases hq : q = k
      · subst hq
        rw [if_pos rfl, if_neg (fun hc => hknotin hc), if_pos (List.mem_cons_self _ _),
          List.append_nil]
      · by_cases hq2 : q ∈ rest
        · rw [if_pos hq2, if_neg hq, if_pos (List.mem_cons_of_mem _ hq2)]
        · rw [if_neg hq2, if_neg hq, if_neg (by simp [hq, hq2]), List.append_nil]

theorem insertKeysLoop_rollback {u : Bool} {d : Value} {ks : List Value}
    {t0 t t' : IdxTree} {done : List Value} {e : DBError}
    (hwf0 : TreeWF t0) (hnd : (done ++ ks).Nodup)
    (hfr : ∀ k ∈ done ++ ks, d ∉ semAt t0 k)
    (hwf : TreeWF t)
    (hsem : ∀ q, semAt t q = semAt t0 q ++ (if q ∈ done then [d] else []))
    (h : insertKeysLoop u d ks t done = (t', some e)) :
    t' = t0 := by
  induction ks generalizing t done with
  | nil =>
    rw [insertKeysLoop] at h
    exact absurd h (by simp)
  | cons k rest ih =>
    rw [insertKeysLoop] at h
    rcases hins : treeInsert u k d t with e2 | t1 <;> rw [hins] at h
    · cases h
      have hdnd : done.Nodup := ((List.nodup_append.mp hnd).1)
      apply tree_ext (foldDelete_WF hwf done) hwf0
      intro q
      rw [foldDelete_semAt hwf hdnd q]
      by_cases hq : q ∈ done
      · rw [if_pos hq, hsem q, if_pos hq]
        rw [bucketDel_append]
        intro hcon
        exact hfr q (List.mem_append_left _ hq) hcon
      · rw [if_neg hq, hsem q, if_neg hq, List.append_nil]
    · have hknot : k ∉ done := by
        intro hc
        have := List.nodup_append.mp hnd
        exact this.2.2 hc (List.mem_cons_self _ _)
      have hfrk : d ∉ semAt t k := by
        rw [hsem k, if_neg hknot, List.append_nil]
        exact hfr k (List.mem_append_right _ (List.mem_cons_self _ _))
      have hwf1 := treeInsert_ok_WF hwf hfrk hins
      have hsem1 := fun q => treeInsert_ok_semAt hwf hins q
      apply @ih t1 (done ++ [k]) ?_ ?_ hwf1 ?_ h
      · rw [List.append_assoc]
        simpa using hnd
      · intro k2 hk2
        apply hfr
        rcases List.mem_append.mp hk2 with h2 | h2
        · rcases List.mem_append.mp h2 with h3 | h3
          · exact List.mem_append_left _ h3
          · rw [List.mem_singleton] at h3
            exact List.mem_append_right _ (h3 ▸ List.mem_cons_self _ _)
        · exact List.mem_append_right _ (List.mem_cons_of_mem _ h2)
      · intro q
        rw [hsem1 q]
        by_cases hq : q = k
        · subst hq
          rw [if_pos rfl, hsem q, if_neg hknot, List.append_nil, if_pos (by simp)]
        · rw [if_neg hq, hsem q]
          by_cases hq2 : q ∈ done
          · rw [if_pos hq2, if_pos (by simp [hq2])]
          · rw [if_neg hq2, if_neg (by simp [hq, hq2]), List.append_nil]

theorem Index.insertOne_eq_loop (idx : Index) (doc : Value) :
    idx.insertOne doc =
      ({ idx with tree := (insertKeysLoop idx.unique doc (idx.docKeys doc) idx.tree []).1 },
        (insertKeysLoop idx.unique doc (idx.docKeys doc) idx.tree []).2) := by
  rw [Index.insertOne, Index.docKeys, Index.keyOf]
  by_cases hsp : (getDotValue doc idx.fieldName = Value.vundef ∧ idx.sparse = true)
  · rw [if_pos hsp, if_pos hsp, insertKeysLoop]
  · rw [if_neg hsp, if_neg hsp]
    cases hk : getDotValue doc idx.fieldName with
    | varr l =>
      rcases hloop : insertKeysLoop idx.unique doc (uniqProj l) idx.tree [] with ⟨t2, r⟩
      cases r <;> simp_all
    | vundef =>
      rw [insertKeysLoop]
      rcases treeInsert idx.unique Value.vundef doc idx.tree with e | t2 <;>
        simp [insertKeysLoop]
    | vnull =>
      rw [insertKeysLoop]
      rcases treeInsert idx.unique Value.vnull doc idx.tree with e | t2 <;>
        simp [insertKeysLoop]
    | vnum a =>
      rw [insertKeysLoop]
      rcases treeInsert idx.unique (Value.vnum a) doc idx.tree with e | t2 <;>
        simp [insertKeysLoop]
    | vstr a =>
      rw [insertKeysLoop]
      rcases treeInsert idx.unique (Value.vstr a) doc idx.tree with e | t2 <;>
        simp [insertKeysLoop]
    | vbool a =>
      rw [insertKeysLoop]
      rcases treeInsert idx.unique (Value.vbool a) doc idx.tree with e | t2 <;>
        simp [insertKeysLoop]
    | vdate a =>
      rw [insertKeysLoop]
      rcases treeInsert idx.unique (Value.vdate a) doc idx.tree with e | t2 <;>
        simp [insertKeysLoop]
    | vobj a =>
      rw [insertKeysLoop]
      rcases treeInsert idx.unique (Value.vobj a) doc idx.tree with e | t2 <;>
        simp [insertKeysLoop]

theorem Index.removeOne_eq_fold (idx : Index) (doc : Value) :
    idx.removeOne doc =
      { idx with tree := (idx.docKeys doc).foldl (fun t k => treeDelete k doc t) idx.tree } := by
  rw [Index.removeOne, Index.docKeys, Index.keyOf]
  by_cases hsp : (getDotValue doc idx.fieldName = Value.vundef ∧ idx.sparse = true)
  · rw [if_pos hsp, if_pos hsp]
    cases idx; rfl
  · rw [if_neg hsp, if_neg hsp]
    cases hk : getDotValue doc idx.fieldName <;> rfl

theorem Index.ext_eq {i1 i2 : Index} (h1 : i1.fieldName = i2.fieldName)
    (h2 : i1.unique = i2.unique) (h3 : i1.sparse = i2.sparse) (h4 : i1.tree = i2.tree) :
    i1 = i2 := by
  cases i1; cases i2; simp_all

theorem Index.removeOne_fields (idx : Index) (doc : Value) :
    (idx.removeOne doc).fieldName = idx.fieldName ∧ (idx.removeOne doc).unique = idx.unique ∧
      (idx.removeOne doc).sparse = idx.sparse := by
  rw [Index.removeOne_eq_fold]
  exact ⟨rfl, rfl, rfl⟩

theorem Index.insertOne_fields {idx idx' : Index} {doc : Value} {r : Option DBError}
    (h : idx.insertOne doc = (idx', r)) :
    idx'.fieldName = idx.fieldName ∧ idx'.unique = idx.unique ∧ idx'.sparse = idx.sparse := by
  rw [Index.insertOne_eq_loop] at h
  cases h
  exact ⟨rfl, rfl, rfl⟩

theorem Index.docKeys_congr {idx idx' : Index} (hf : idx'.fieldName = idx.fieldName)
    (hs : idx'.sparse = idx.sparse) (doc : Value) :
    idx'.docKeys doc = idx.docKeys doc := by
  rw [Index.docKeys, Index.docKeys, Index.keyOf, Index.keyOf, hf, hs]

theorem Index.insertOne_ok {idx idx' : Index} {doc : Value}
    (hwf : TreeWF idx.tree)
    (hfr : ∀ k ∈ idx.docKeys doc, doc ∉ semAt idx.tree k)
    (h : idx.insertOne doc = (idx', none)) :
    TreeWF idx'.tree ∧
      (∀ q, semAt idx'.tree q =
        semAt idx.tree q ++ (if q ∈ idx.docKeys doc then [doc] else [])) ∧
      idx'.fieldName = idx.fieldName ∧ idx'.unique = idx.unique ∧ idx'.sparse = idx.sparse := by
  have hfields := Index.insertOne_fields h
  rw [Index.insertOne_eq_loop] at h
  have h2 := congrArg Prod.snd h
  have h1 := congrArg Prod.fst h
  simp only [] at h1 h2
  have hl : insertKeysLoop idx.unique doc (idx.docKeys doc) idx.tree [] =
      ((insertKeysLoop idx.unique doc (idx.docKeys doc) idx.tree []).1, none) := by
    rw [← h2]
  obtain ⟨hwf2, hsem2⟩ := insertKeysLoop_ok hwf (idx.docKeys_nodup doc) hfr hl
  refine ⟨?_, ?_, hfields⟩
  · rw [← h1]; exact hwf2
  · intro q
    rw [← h1]
    exact hsem2 q

theorem Index.insertOne_error_restore {idx idx' : Index} {doc : Value} {e : DBError}
    (hwf : TreeWF idx.tree)
    (hfr : ∀ k ∈ idx.docKeys doc, doc ∉ semAt idx.tree k)
    (h : idx.insertOne doc = (idx', some e)) :
    idx' = idx := by
  rw [Index.insertOne_eq_loop] at h
  have h2 := congrArg Prod.snd h
  have h1 := congrArg Prod.fst h
  simp only [] at h1 h2
  have hl : insertKeysLoop idx.unique doc (idx.docKeys doc) idx.tree [] =
      ((insertKeysLoop idx.unique doc (idx.docKeys doc) idx.tree []).1, some e) := by
    rw [← h2]
  have ht : (insertKeysLoop idx.unique doc (idx.docKeys doc) idx.tree []).1 = idx.tree := by
    apply insertKeysLoop_rollback hwf (by simpa using idx.docKeys_nodup doc)
      (by simpa using hfr) hwf (fun q => by simp) hl
  rw [← h1, ht]

theorem Index.removeOne_sem {idx : Index} {doc : Value} (hwf : TreeWF idx.tree) :
    TreeWF (idx.removeOne doc).tree ∧
      ∀ q, semAt (idx.removeOne doc).tree q =
        if q ∈ idx.docKeys doc then bucketDel doc (semAt idx.tree q) else semAt idx.tree q := by
  rw [Index.removeOne_eq_fold]
  exact ⟨foldDelete_WF hwf _, fun q => foldDelete_semAt hwf (idx.docKeys_nodup doc) q⟩

theorem Index.removeOne_insertOne {idx idx' : Index} {doc : Value}
    (hwf : TreeWF idx.tree)
    (hfr : ∀ k ∈ idx.docKeys doc, doc ∉ semAt idx.tree k)
    (h : idx.insertOne doc = (idx', none)) :
    idx'.removeOne doc = idx := by
  obtain ⟨hwf', hsem', hf, hu, hs⟩ := Index.insertOne_ok hwf hfr h
  have hkeys : idx'.docKeys doc = idx.docKeys doc := Index.docKeys_congr hf hs doc
  obtain ⟨hwf2, hsem2⟩ := @Index.removeOne_sem idx' doc hwf'
  have hrf := Index.removeOne_fields idx' doc
  apply Index.ext_eq (hrf.1.trans hf) (hrf.2.1.trans hu) (hrf.2.2.trans hs)
  apply tree_ext hwf2 hwf
  intro q
  rw [hsem2 q, hkeys]
  by_cases hq : q ∈ idx.docKeys doc
  · rw [if_pos hq, hsem' q, if_pos hq, bucketDel_append (hfr q hq)]
  · rw [if_neg hq, hsem' q, if_neg hq, List.append_nil]

theorem semAt_nodup {t : IdxTree} (hwf : TreeWF t) (q : Value) : (semAt t q).Nodup := by
  induction t with
  | nil => exact List.nodup_nil
  | cons p rest ih =>
    rw [semAt]
    by_cases hq : p.1 = q
    · rw [if_pos hq]
      exact (hwf.2 p (List.mem_cons_self _ _)).2
    · rw [if_neg hq]
      exact ih hwf.tail

theorem bucketDel_eq_remove {d : Value} {l : List Value} (hmem : d ∈ l) :
    bucketDel d l = l.filter (fun x => x ≠ d) := by
  rw [bucketDel]
  by_cases hlen : 1 < l.length
  · rw [if_pos hlen]
  · rw [if_neg hlen]
    cases l with
    | nil => rfl
    | cons x xs =>
      cases xs with
      | nil =>
        rw [List.mem_singleton] at hmem
        subst hmem
        simp
      | cons y ys => exact absurd (by simp only [List.length_cons]; omega) hlen

theorem insertKeysLoop_free_ok {u : Bool} {d : Value} {ks : List Value} {t : IdxTree}
    {done : List Value}
    (hwf : TreeWF t) (hnd : ks.Nodup) (hfree : ∀ k ∈ ks, semAt t k = []) :
    (insertKeysLoop u d ks t done).2 = none := by
  induction ks generalizing t done with
  | nil => rw [insertKeysLoop]
  | cons k rest ih =>
    rw [insertKeysLoop]
    rcases hins : treeInsert u k d t with e | t1
    · have := (treeInsert_error_iff (k := k) (d := d) (u := u) hwf).mp hins
      exact absurd (hfree k (List.mem_cons_self _ _)) this.2.1
    · have hfrk : d ∉ semAt t k := by
        rw [hfree k (List.mem_cons_self _ _)]
        exact List.not_mem_nil d
      have hwf1 := treeInsert_ok_WF hwf hfrk hins
      have hsem1 := fun q => treeInsert_ok_semAt hwf hins q
      have hnd2 := (List.nodup_cons.mp hnd).2
      have hknotin := (List.nodup_cons.mp hnd).1
      apply ih hwf1 hnd2
      intro k2 hk2
      rw [hsem1 k2, if_neg (fun he : k2 = k => hknotin (he ▸ hk2))]
      exact hfree k2 (List.mem_cons_of_mem _ hk2)

theorem Index.insertOne_free_ok {idx : Index} {doc : Value}
    (hwf : TreeWF idx.tree)
    (hfree : ∀ k ∈ idx.docKeys doc, semAt idx.tree k = []) :
    (idx.insertOne doc).2 = none := by
  rw [Index.insertOne_eq_loop]
  exact insertKeysLoop_free_ok hwf (idx.docKeys_nodup doc) hfree

theorem filter_ne_append_cons {d : Value} {b rf : List Value}
    (h1 : d ∉ b) (h2 : d ∉ rf) :
    (b ++ d :: rf).filter (fun x => x ≠ d) = b ++ rf := by
  rw [List.filter_append]
  have hb : b.filter (fun x => x ≠ d) = b := by
    rw [List.filter_eq_self]
    intro a ha
    simp only [ne_eq, decide_eq_true_eq]
    intro he
    exact h1 (he ▸ ha)
  have hr : (d :: rf).filter (fun x => x ≠ d) = rf := by
    rw [List.filter_cons]
    simp only [ne_eq, not_true_eq_false, decide_False, Bool.false_eq_true, if_false]
    rw [List.filter_eq_self]
    intro a ha
    simp only [ne_eq, decide_eq_true_eq]
    intro he
    exact h2 (he ▸ ha)
  rw [hb, hr]

theorem removeListFold_restore {base idx : Index} {docs : List Value}
    (hf : idx.fieldName = base.fieldName) (hs : idx.sparse = base.sparse)
    (hu : idx.unique = base.unique)
    (hbwf : TreeWF base.tree) (hwf : TreeWF idx.tree)
    (hnd : docs.Nodup)
    (hfr : ∀ d ∈ docs, ∀ q, d ∉ semAt base.tree q)
    (hsem : ∀ q, semAt idx.tree q =
      semAt base.tree q ++ docs.filter (fun d => q ∈ base.docKeys d)) :
    docs.foldl (fun i d => i.removeOne d) idx = base := by
  induction docs generalizing idx with
  | nil =>
    rw [List.foldl_nil]
    apply Index.ext_eq hf hu hs
    apply tree_ext hwf hbwf
    intro q
    rw [hsem q]
    simp
  | cons d rest ih =>
    rw [List.foldl_cons]
    obtain ⟨hwf2, hsem2⟩ := @Index.removeOne_sem idx d hwf
    have hrf := Index.removeOne_fields idx d
    have hkeys : idx.docKeys d = base.docKeys d := Index.docKeys_congr hf hs d
    have hdnotrest : d ∉ rest := (List.nodup_cons.mp hnd).1
    apply ih (hrf.1.trans hf) (hrf.2.2.trans hs) (hrf.2.1.trans hu) hwf2
      (List.nodup_cons.mp hnd).2
      (fun d2 hd2 q => hfr d2 (List.mem_cons_of_mem _ hd2) q)
    intro q
    rw [hsem2 q, hkeys]
    by_cases hq : q ∈ base.docKeys d
    · rw [if_pos hq, hsem q]
      have hfil : (d :: rest).filter (fun d2 => q ∈ base.docKeys d2) =
          d :: rest.filter (fun d2 => q ∈ base.docKeys d2) := by
        rw [List.filter_cons]
        simp [hq]
      rw [hfil]
      have hmem : d ∈ semAt base.tree q ++ d :: rest.filter (fun d2 => q ∈ base.docKeys d2) := by
        simp
      rw [bucketDel_eq_remove hmem]
      apply filter_ne_append_cons
      · exact hfr d (List.mem_cons_self _ _) q
      · intro hcon
        exact hdnotrest (List.mem_of_mem_filter hcon)
    · rw [if_neg hq, hsem q]
      have hfil : (d :: rest).filter (fun d2 => q ∈ base.docKeys d2) =
          rest.filter (fun d2 => q ∈ base.docKeys d2) := by
        rw [List.filter_cons]
        simp [hq]
      rw [hfil]

theorem removeOldFold_sem {idx : Index} {olds : List Value}
    (hwf : TreeWF idx.tree)
    (hold : ∀ d ∈ olds, ∀ k ∈ idx.docKeys d, semAt idx.tree k = [d])
    (hnd : olds.Nodup) :
    (olds.foldl (fun i d => i.removeOne d) idx).fieldName = idx.fieldName ∧
    (olds.foldl (fun i d => i.removeOne d) idx).unique = idx.unique ∧
    (olds.foldl (fun i d => i.removeOne d) idx).sparse = idx.sparse ∧
    TreeWF (olds.foldl (fun i d => i.removeOne d) idx).tree ∧
    ∀ q, semAt (olds.foldl (fun i d => i.removeOne d) idx).tree q =
      if olds.any (fun d => decide (q ∈ idx.docKeys d)) then [] else semAt idx.tree q := by
  induction olds generalizing idx with
  | nil => exact ⟨rfl, rfl, rfl, hwf, fun q => by simp⟩
  | cons d rest ih =>
    rw [List.foldl_cons]
    obtain ⟨hwf2, hsem2⟩ := @Index.removeOne_sem idx d hwf
    have hrf := Index.removeOne_fields idx d
    have hkc : ∀ d2, (idx.removeOne d).docKeys d2 = idx.docKeys d2 :=
      fun d2 => Index.docKeys_congr hrf.1 hrf.2.2 d2
    have hold2 : ∀ d2 ∈ rest, ∀ k ∈ (idx.removeOne d).docKeys d2,
        semAt (idx.removeOne d).tree k = [d2] := by
      intro d2 hd2 k hk
      rw [hkc d2] at hk
      rw [hsem2 k]
      by_cases hq : k ∈ idx.docKeys d
      · exfalso
        have h1 := hold d (List.mem_cons_self _ _) k hq
        have h2 := hold d2 (List.mem_cons_of_mem _ hd2) k hk
        rw [h1] at h2
        have hdd : d = d2 := by injection h2
        exact (List.nodup_cons.mp hnd).1 (hdd ▸ hd2)
      · rw [if_neg hq]
        exact hold d2 (List.mem_cons_of_mem _ hd2) k hk
    obtain ⟨hf3, hu3, hs3, hwf3, hsem3⟩ := ih hwf2 hold2 (List.nodup_cons.mp hnd).2
    refine ⟨hf3.trans hrf.1, hu3.trans hrf.2.1, hs3.trans hrf.2.2, hwf3, ?_⟩
    intro q
    rw [hsem3 q]
    by_cases hqrest : rest.any (fun d2 => decide (q ∈ (idx.removeOne d).docKeys d2)) = true
    · rw [if_pos hqrest]
      have hany : (d :: rest).any (fun d2 => decide (q ∈ idx.docKeys d2)) = true := by
        simp only [List.any_cons, Bool.or_eq_true]
        right
        have := hqrest
        simp only [hkc] at this
        exact this
      rw [if_pos hany]
    · rw [if_neg hqrest, hsem2 q]
      by_cases hq : q ∈ idx.docKeys d
      · have h1 := hold d (List.mem_cons_self _ _) q hq
        rw [if_pos hq, h1]
        have hany : (d :: rest).any (fun d2 => decide (q ∈ idx.docKeys d2)) = true := by
          simp [hq]
        rw [if_pos hany]
        rw [bucketDel]
        simp
      · rw [if_neg hq]
        have hnotany : ¬((d :: rest).any (fun d2 => decide (q ∈ idx.docKeys d2)) = true) := by
          simp only [List.any_cons, Bool.or_eq_true]
          push_neg
          constructor
          · simpa using hq
          · intro hcon
            apply hqrest
            simp only [hkc]
            exact hcon
        rw [if_neg hnotany]

theorem rollbackInsertOld_restore {idx0 ic idx' : Index} {ps : List (Value × Value)}
    {e : DBError} {r : Option DBError}
    (hwf0 : TreeWF idx0.tree)
    (hold : ∀ p ∈ ps, ∀ k ∈ idx0.docKeys p.1, semAt idx0.tree k = [p.1])
    (holdnd : (ps.map Prod.fst).Nodup)
    (hfc : ic.fieldName = idx0.fieldName) (huc : ic.unique = idx0.unique)
    (hsc : ic.sparse = idx0.sparse) (hwfc : TreeWF ic.tree)
    (hsemc : ∀ q, semAt ic.tree q =
      if (ps.map Prod.fst).any (fun d => decide (q ∈ idx0.docKeys d)) then []
      else semAt idx0.tree q)
    (h : rollbackInsertOld ic ps e = (idx', r)) :
    idx' = idx0 ∧ r = some e := by
  induction ps generalizing ic with
  | nil =>
    rw [rollbackInsertOld] at h
    have h1 := congrArg Prod.fst h
    have h2 := congrArg Prod.snd h
    simp only [] at h1 h2
    refine ⟨?_, h2.symm⟩
    rw [← h1]
    apply Index.ext_eq hfc huc hsc
    apply tree_ext hwfc hwf0
    intro q
    rw [hsemc q]
    simp
  | cons p rest ih =>
    rw [rollbackInsertOld] at h
    have hkc : ic.docKeys p.1 = idx0.docKeys p.1 := Index.docKeys_congr hfc hsc p.1
    have hfree : ∀ k ∈ ic.docKeys p.1, semAt ic.tree k = [] := by
      intro k hk
      rw [hkc] at hk
      rw [hsemc k, if_pos]
      simp only [List.any_eq_true, List.mem_map, decide_eq_true_eq]
      exact ⟨p.1, ⟨p, List.mem_cons_self _ _, rfl⟩, hk⟩
    have hsnd := Index.insertOne_free_ok hwfc hfree
    rcases hins : ic.insertOne p.1 with ⟨ic1, rr⟩
    rw [hins] at hsnd
    simp only [] at hsnd
    subst hsnd
    rw [hins] at h
    obtain ⟨hwf1, hsem1, hf1, hu1, hs1⟩ := Index.insertOne_ok hwfc
      (fun k hk => by rw [hfree k hk]; exact List.not_mem_nil _) hins
    apply ih (fun p2 hp2 => hold p2 (List.mem_cons_of_mem _ hp2))
      ((List.nodup_cons.mp (by simpa using holdnd)).2)
      (hf1.trans hfc) (hu1.trans huc) (hs1.trans hsc) hwf1 ?_ h
    intro q
    rw [hsem1 q, hkc, hsemc q]
    by_cases hq : q ∈ idx0.docKeys p.1
    · rw [if_pos hq]
      have hany : ((p :: rest).map Prod.fst).any (fun d => decide (q ∈ idx0.docKeys d)) = true := by
        simp only [List.map_cons, List.any_cons, Bool.or_eq_true]
        left
        simpa using hq
      rw [if_pos hany]
      have hnotrest : ¬((rest.map Prod.fst).any (fun d => decide (q ∈ idx0.docKeys d)) = true) := by
        intro hcon
        simp only [List.any_eq_true, List.mem_map, decide_eq_true_eq] at hcon
        obtain ⟨d2, ⟨p2, hp2, hpe⟩, hqd2⟩ := hcon
        have h1 := hold p (List.mem_cons_self _ _) q hq
        have h2 := hold p2 (List.mem_cons_of_mem _ hp2) q (hpe ▸ hqd2)
        rw [h1] at h2
        have hdd : p.1 = p2.1 := by injection h2
        have hmm : p.1 ∈ rest.map Prod.fst := List.mem_map.mpr ⟨p2, hp2, hdd.symm⟩
        exact (List.nodup_cons.mp (by simpa using holdnd)).1 hmm
      rw [if_neg hnotrest]
      rw [List.nil_append]
      exact (hold p (List.mem_cons_self _ _) q hq).symm
    · rw [if_neg hq, List.append_nil]
      by_cases hqrest : (rest.map Prod.fst).any (fun d => decide (q ∈ idx0.docKeys d)) = true
      · rw [if_pos hqrest]
        have hany : ((p :: rest).map Prod.fst).any (fun d => decide (q ∈ idx0.docKeys d)) = true := by
          simp only [List.map_cons, List.any_cons, Bool.or_eq_true]
          right
          exact hqrest
        rw [if_pos hany]
      · rw [if_neg hqrest]
        have hnotany : ¬(((p :: rest).map Prod.fst).any (fun d => decide (q ∈ idx0.docKeys d)) = true) := by
          simp only [List.map_cons, List.any_cons, Bool.or_eq_true]
          push_neg
          exact ⟨by simpa using hq, hqrest⟩
        rw [if_neg hnotany]

theorem updateMultiPhase2_error_restore
    {idx0 idx1 : Index} {all : List (Value × Value)}
    (hwf0 : TreeWF idx0.tree)
    (hold : ∀ p ∈ all, ∀ k ∈ idx0.docKeys p.1, semAt idx0.tree k = [p.1])
    (holdnd : (all.map Prod.fst).Nodup)
    (hnewfr : ∀ p ∈ all, ∀ q, p.2 ∉ semAt idx0.tree q)
    (hnewnd : (all.map Prod.snd).Nodup)
    (hf1 : idx1.fieldName = idx0.fieldName) (hu1 : idx1.unique = idx0.unique)
    (hs1 : idx1.sparse = idx0.sparse) (hwf1 : TreeWF idx1.tree)
    (hsem1 : ∀ q, semAt idx1.tree q =
      if (all.map Prod.fst).any (fun d => decide (q ∈ idx0.docKeys d)) then []
      else semAt idx0.tree q)
    {ic idx' : Index} {pending done : List (Value × Value)} {e : DBError}
    (hallsplit : all = done ++ pending)
    (hfc : ic.fieldName = idx0.fieldName) (huc : ic.unique = idx0.unique)
    (hsc : ic.sparse = idx0.sparse) (hwfc : TreeWF ic.tree)
    (hsemc : ∀ q, semAt ic.tree q =
      semAt idx1.tree q ++ (done.map Prod.snd).filter (fun d => q ∈ idx0.docKeys d))
    (h : updateMultiPhase2 ic pending done all = (idx', some e)) :
    idx' = idx0 := by
  have hkc1 : ∀ d, idx1.docKeys d = idx0.docKeys d :=
    fun d => Index.docKeys_congr hf1 hs1 d
  revert hallsplit hfc huc hsc hwfc hsemc h
  induction pending generalizing ic done with
  | nil =>
    intro _ _ _ _ _ _ h
    rw [updateMultiPhase2] at h
    have h2 := congrArg Prod.snd h
    simp only [] at h2
    exact Option.noConfusion h2
  | cons p rest ih =>
    intro hallsplit hfc huc hsc hwfc hsemc h
    rw [updateMultiPhase2] at h
    have hpall : p ∈ all := by
      rw [hallsplit]; exact List.mem_append_right _ (List.mem_cons_self _ _)
    have hkc : ic.docKeys p.2 = idx0.docKeys p.2 := Index.docKeys_congr hfc hsc p.2
    have hnews : ((done.map Prod.snd) ++ ((p :: rest).map Prod.snd)).Nodup := by
      rw [← List.map_append, ← hallsplit]; exact hnewnd
    have hndone : (done.map Prod.snd).Nodup := (List.nodup_append.mp hnews).1
    have hfrdone : ∀ d ∈ done.map Prod.snd, ∀ q, d ∉ semAt idx1.tree q := by
      intro d hd q hcon
      obtain ⟨pd, hpd, hde⟩ := List.mem_map.mp hd
      rw [hsem1 q] at hcon
      by_cases hany : (all.map Prod.fst).any (fun d2 => decide (q ∈ idx0.docKeys d2)) = true
      · rw [if_pos hany] at hcon; exact List.not_mem_nil _ hcon
      · rw [if_neg hany] at hcon
        exact hnewfr pd (by rw [hallsplit]; exact List.mem_append_left _ hpd) q (hde ▸ hcon)
    have hfr : ∀ k ∈ ic.docKeys p.2, p.2 ∉ semAt ic.tree k := by
      intro k _ hcon
      rw [hsemc k] at hcon
      rcases List.mem_append.mp hcon with hin | hin
      · rw [hsem1 k] at hin
        by_cases hany : (all.map Prod.fst).any (fun d2 => decide (k ∈ idx0.docKeys d2)) = true
        · rw [if_pos hany] at hin; exact List.not_mem_nil _ hin
        · rw [if_neg hany] at hin
          exact hnewfr p hpall k hin
      · have hmem := List.mem_of_mem_filter hin
        have hdis := (List.nodup_append.mp hnews).2.2
        exact hdis hmem (by simp)
    rcases hins : ic.insertOne p.2 with ⟨ic1, rr⟩
    rw [hins] at h
    cases rr with
    | none =>
      obtain ⟨hwfn, hsemn, hfx, hux, hsx⟩ := Index.insertOne_ok hwfc hfr hins
      apply @ih ic1 (done ++ [p])
        (by rw [hallsplit]; simp)
        (hfx.trans hfc) (hux.trans huc) (hsx.trans hsc) hwfn ?_ h
      intro q
      rw [hsemn q, hsemc q, hkc, List.map_append, List.filter_append, List.append_assoc]
      by_cases hq : q ∈ idx0.docKeys p.2
      · simp [hq]
      · simp [hq]
    | some e2 =>
      have hic1 : ic1 = ic := Index.insertOne_error_restore hwfc hfr hins
      subst hic1
      have hfold : done.foldl (fun i pp => i.removeOne pp.2) ic1 = idx1 := by
        have hmap : (done.map Prod.snd).foldl (fun i d => i.removeOne d) ic1
            = done.foldl (fun i pp => i.removeOne pp.2) ic1 := List.foldl_map _ _ _ _
        rw [← hmap]
        apply removeListFold_restore
          (hfc.trans hf1.symm) (hsc.trans hs1.symm) (huc.trans hu1.symm)
          hwf1 hwfc hndone hfrdone
        intro q
        rw [hsemc q]
        congr 1
        apply List.filter_congr
        intro d _
        rw [hkc1 d]
      have h2 : rollbackInsertOld idx1 all e2 = (idx', some e) := by
        rw [← hfold]; exact h
      exact (rollbackInsertOld_restore hwf0 hold holdnd hf1 hu1 hs1 hwf1 hsem1 h2).1

theorem Index.updateMulti_error_restore {idx idx' : Index} {prs : List (Value × Value)}
    {e : DBError}
    (hwf : TreeWF idx.tree)
    (hold : ∀ p ∈ prs, ∀ k ∈ idx.docKeys p.1, semAt idx.tree k = [p.1])
    (holdnd : (prs.map Prod.fst).Nodup)
    (hnewfr : ∀ p ∈ prs, ∀ q, p.2 ∉ semAt idx.tree q)
    (hnewnd : (prs.map Prod.snd).Nodup)
    (h : idx.updateMulti prs = (idx', some e)) :
    idx' = idx := by
  rw [Index.updateMulti] at h
  have hmap : (prs.map Prod.fst).foldl (fun i d => i.removeOne d) idx
      = prs.foldl (fun i p => i.removeOne p.1) idx := List.foldl_map _ _ _ _
  obtain ⟨hf1, hu1, hs1, hwf1, hsem1⟩ :=
    @removeOldFold_sem idx (prs.map Prod.fst) hwf
      (by intro d hd k hk
          obtain ⟨pd, hpd, hde⟩ := List.mem_map.mp hd
          exact hde ▸ hold pd hpd k (hde ▸ hk)) holdnd
  rw [hmap] at hf1 hu1 hs1 hwf1 hsem1
  apply updateMultiPhase2_error_restore hwf hold holdnd hnewfr hnewnd hf1 hu1 hs1 hwf1
    hsem1 (List.nil_append prs).symm hf1 hu1 hs1 hwf1 ?_ h
  intro q
  rw [List.map_nil, List.filter_nil, List.append_nil]

theorem semAt_sub {t : IdxTree} {q x : Value} (hx : x ∈ semAt t q) :
    ∃ nd ∈ t, x ∈ nd.2 := by
  induction t with
  | nil => exact absurd hx (List.not_mem_nil x)
  | cons p rest ih =>
    rw [semAt] at hx
    by_cases hp : p.1 = q
    · rw [if_pos hp] at hx
      exact ⟨p, List.mem_cons_self _ _, hx⟩
    · rw [if_neg hp] at hx
      obtain ⟨nd, hm, hx2⟩ := ih hx
      exact ⟨nd, List.mem_cons_of_mem _ hm, hx2⟩

theorem FreshInTree.not_mem_semAt {t : IdxTree} {d : Value} (h : FreshInTree t d)
    (q : Value) : d ∉ semAt t q := fun hc => by
  obtain ⟨nd, hm, hd⟩ := semAt_sub hc
  exact h nd hm hd

theorem forall2_mem_left {α β : Type} {r : α → β → Prop} {l1 : List α} {l2 : List β}
    (h : List.Forall₂ r l1 l2) {a : α} (ha : a ∈ l1) : ∃ b ∈ l2, r a b := by
  induction h with
  | nil => exact absurd ha (List.not_mem_nil a)
  | cons hr ht ih =>
    rcases List.mem_cons.mp ha with h1 | h1
    · exact ⟨_, List.mem_cons_self _ _, h1 ▸ hr⟩
    · obtain ⟨b, hb, hrb⟩ := ih h1
      exact ⟨b, List.mem_cons_of_mem _ hb, hrb⟩

theorem forall2_comp {α β γ : Type} {r : α → β → Prop} {s : β → γ → Prop}
    {t : α → γ → Prop} :
    ∀ {l1 : List α} {l2 : List β} {l3 : List γ},
      List.Forall₂ r l1 l2 → List.Forall₂ s l2 l3 →
      (∀ a b c, b ∈ l2 → c ∈ l3 → r a b → s b c → t a c) →
      List.Forall₂ t l1 l3 := by
  intro l1 l2 l3 h1
  induction h1 generalizing l3 with
  | nil =>
    intro h2 _
    cases h2
    exact List.Forall₂.nil
  | cons hr _ ih =>
    intro h2 h
    cases h2 with
    | cons hs htail =>
      exact List.Forall₂.cons
        (h _ _ _ (List.mem_cons_self _ _) (List.mem_cons_self _ _) hr hs)
        (ih htail (fun a b c hb hc hrr hss =>
          h a b c (List.mem_cons_of_mem _ hb) (List.mem_cons_of_mem _ hc) hrr hss))

theorem forall2_map_eq {α β : Type} {r : α → β → Prop} {l1 : List α} {l2 : List β}
    {f : α → β} (h : List.Forall₂ r l1 l2)
    (hf : ∀ a b, b ∈ l2 → r a b → f a = b) : l1.map f = l2 := by
  induction h with
  | nil => rfl
  | cons hr _ ih =>
    rw [List.map_cons, hf _ _ (List.mem_cons_self _ _) hr,
      ih (fun a b hb hr2 => hf a b (List.mem_cons_of_mem _ hb) hr2)]

theorem addToIndexesAux_error_shape {doc : Value} {pending done idxs : List (String × Index)}
    {e : DBError}
    (hwf : ∀ p ∈ pending, TreeWF p.2.tree)
    (hfr : ∀ p ∈ pending, ∀ k, doc ∉ semAt p.2.tree k)
    (h : MemoryDB.addToIndexesAux doc pending done = (idxs, some e)) :
    idxs = done.map (fun p => (p.1, p.2.removeOne doc)) ++ pending := by
  induction pending generalizing done with
  | nil =>
    rw [MemoryDB.addToIndexesAux] at h
    have h2 : (none : Option DBError) = some e := congrArg Prod.snd h
    exact Option.noConfusion h2
  | cons pi rest ih =>
    obtain ⟨f, idx⟩ := pi
    rw [MemoryDB.addToIndexesAux] at h
    rcases hins : idx.insertOne doc with ⟨idx1, rr⟩
    rw [hins] at h
    have hwfi : TreeWF idx.tree := hwf _ (List.mem_cons_self _ _)
    have hfri : ∀ k ∈ Index.docKeys ⟨idx.fieldName, idx.unique, idx.sparse, idx.tree⟩ doc,
        doc ∉ semAt idx.tree k := by
      intro k _
      exact hfr _ (List.mem_cons_self _ _) k
    cases rr with
    | none =>
      have h' : MemoryDB.addToIndexesAux doc rest (done ++ [(f, idx1)]) = (idxs, some e) := h
      have hres := ih (fun p hp => hwf p (List.mem_cons_of_mem _ hp))
        (fun p hp => hfr p (List.mem_cons_of_mem _ hp)) h'
      have hro : idx1.removeOne doc = idx :=
        Index.removeOne_insertOne hwfi (fun k hk => hfr _ (List.mem_cons_self _ _) k) hins
      rw [hres, List.map_append]
      simp [hro]
    | some e2 =>
      have hid : idx1 = idx :=
        Index.insertOne_error_restore hwfi (fun k hk => hfr _ (List.mem_cons_self _ _) k) hins
      have h1 : done.map (fun p => (p.1, p.2.removeOne doc)) ++ (f, idx1) :: rest = idxs :=
        congrArg Prod.fst h
      rw [← h1, hid]

theorem MemoryDB.addToIndexes_error_restore {db db' : MemoryDB} {doc : Value} {e : DBError}
    (hwf : DBWF db) (hfr : ∀ p ∈ db.indexes, ∀ k, doc ∉ semAt p.2.tree k)
    (h : db.addToIndexes doc = (db', some e)) : db' = db := by
  rw [MemoryDB.addToIndexes] at h
  rcases haux : MemoryDB.addToIndexesAux doc db.indexes [] with ⟨idxs, r⟩
  rw [haux] at h
  have h1 := congrArg Prod.fst h
  have h2 := congrArg Prod.snd h
  simp only [] at h1 h2
  subst h2
  have hsh := addToIndexesAux_error_shape hwf hfr haux
  rw [List.map_nil, List.nil_append] at hsh
  rw [← h1, hsh]

theorem addToIndexesAux_ok_shape {doc : Value} {pending done idxs : List (String × Index)}
    (h : MemoryDB.addToIndexesAux doc pending done = (idxs, none)) :
    ∃ out, idxs = done ++ out ∧
      List.Forall₂ (fun p q => p.1 = q.1 ∧ q.2.insertOne doc = (p.2, none)) out pending := by
  induction pending generalizing done with
  | nil =>
    rw [MemoryDB.addToIndexesAux] at h
    have h1 : done = idxs := congrArg Prod.fst h
    exact ⟨[], by rw [← h1, List.append_nil], List.Forall₂.nil⟩
  | cons pi rest ih =>
    obtain ⟨f, idx⟩ := pi
    rw [MemoryDB.addToIndexesAux] at h
    rcases hins : idx.insertOne doc with ⟨idx1, rr⟩
    rw [hins] at h
    cases rr with
    | none =>
      have h' : MemoryDB.addToIndexesAux doc rest (done ++ [(f, idx1)]) = (idxs, none) := h
      obtain ⟨out, ho, hf2⟩ := ih h'
      refine ⟨(f, idx1) :: out, ?_, List.Forall₂.cons ⟨rfl, hins⟩ hf2⟩
      rw [ho, List.append_assoc]
      rfl
    | some e2 =>
      have h2 : (some e2 : Option DBError) = none := congrArg Prod.snd h
      exact Option.noConfusion h2

theorem MemoryDB.addToIndexes_ok {db db' : MemoryDB} {doc : Value}
    (h : db.addToIndexes doc = (db', none)) :
    db'.ttlIndexes = db.ttlIndexes ∧
      List.Forall₂ (fun p q => p.1 = q.1 ∧ q.2.insertOne doc = (p.2, none))
        db'.indexes db.indexes := by
  rw [MemoryDB.addToIndexes] at h
  rcases haux : MemoryDB.addToIndexesAux doc db.indexes [] with ⟨idxs, r⟩
  rw [haux] at h
  have h1 := congrArg Prod.fst h
  have h2 := congrArg Prod.snd h
  simp only [] at h1 h2
  subst h2
  obtain ⟨out, ho, hf2⟩ := addToIndexesAux_ok_shape haux
  rw [List.nil_append] at ho
  subst ho
  rw [← h1]
  exact ⟨rfl, hf2⟩

theorem removeFromIndexes_foldl (db : MemoryDB) (docs : List Value) :
    docs.foldl (fun acc dd => acc.removeFromIndexes dd) db =
      ⟨db.indexes.map (fun p => (p.1, docs.foldl (fun i dd => i.removeOne dd) p.2)),
        db.ttlIndexes⟩ := by
  induction docs generalizing db with
  | nil =>
    simp only [List.foldl_nil]
    cases db
    simp
  | cons d rest ih =>
    rw [List.foldl_cons, ih]
    rw [MemoryDB.removeFromIndexes]
    simp [List.map_map, Function.comp]

theorem insertMultiAux_error_restore {db db1 dbout : MemoryDB} {docs done : List Value}
    {e : DBError}
    (hwf : DBWF db)
    (hfr : ∀ d ∈ done ++ docs, FreshDoc db d)
    (hnd : (done ++ docs).Nodup)
    (httl : db1.ttlIndexes = db.ttlIndexes)
    (hinv : List.Forall₂ (fun p q => p.1 = q.1 ∧ p.2.fieldName = q.2.fieldName ∧
        p.2.unique = q.2.unique ∧ p.2.sparse = q.2.sparse ∧ TreeWF p.2.tree ∧
        ∀ k, semAt p.2.tree k = semAt q.2.tree k ++ done.filter (fun d => k ∈ q.2.docKeys d))
      db1.indexes db.indexes)
    (h : MemoryDB.insertMultiAux db1 docs done = (dbout, some e)) :
    dbout = db := by
  induction docs generalizing db1 done with
  | nil =>
    rw [MemoryDB.insertMultiAux] at h
    have h2 : (none : Option DBError) = some e := congrArg Prod.snd h
    exact Option.noConfusion h2
  | cons d rest ih =>
    rw [MemoryDB.insertMultiAux] at h
    have hwf1 : DBWF db1 := by
      intro p hp
      obtain ⟨q, hq, hrel⟩ := forall2_mem_left hinv hp
      exact hrel.2.2.2.2.1
    have hdisj := (List.nodup_append.mp hnd).2.2
    have hdfr : ∀ p1 ∈ db1.indexes, ∀ k, d ∉ semAt p1.2.tree k := by
      intro p1 hp1 k hcon
      obtain ⟨q, hq, _, hfq, huq, hsq, hwfp, hsemp⟩ := forall2_mem_left hinv hp1
      rw [hsemp k] at hcon
      rcases List.mem_append.mp hcon with hin | hin
      · exact FreshInTree.not_mem_semAt (hfr d (by simp) q hq) k hin
      · exact hdisj (List.mem_of_mem_filter hin) (by simp)
    rcases hadd : db1.addToIndexes d with ⟨db2, rr⟩
    rw [hadd] at h
    cases rr with
    | some e2 =>
      have hdb2 : db2 = db1 := MemoryDB.addToIndexes_error_restore hwf1 hdfr hadd
      have h' : (done.foldl (fun acc dd => acc.removeFromIndexes dd) db1, some e2)
          = (dbout, some e) := by
        rw [← hdb2]
        exact h
      have h1 := congrArg Prod.fst h'
      simp only [] at h1
      rw [removeFromIndexes_foldl] at h1
      have hndone : done.Nodup := (List.nodup_append.mp hnd).1
      have hmap : db1.indexes.map
          (fun p => (p.1, done.foldl (fun i dd => i.removeOne dd) p.2)) = db.indexes := by
        apply forall2_map_eq hinv
        rintro p q hq ⟨hn, hfq, huq, hsq, hwfp, hsemp⟩
        have hfrdone : ∀ dd ∈ done, ∀ k, dd ∉ semAt q.2.tree k := by
          intro dd hdd k
          exact FreshInTree.not_mem_semAt (hfr dd (List.mem_append_left _ hdd) q hq) k
        have hq2 : done.foldl (fun i dd => i.removeOne dd) p.2 = q.2 :=
          removeListFold_restore hfq hsq huq (hwf q hq) hwfp hndone hfrdone hsemp
        rw [hq2, hn]
      rw [← h1, hmap, httl]
    | none =>
      obtain ⟨httl2, hf2⟩ := MemoryDB.addToIndexes_ok hadd
      have h' : MemoryDB.insertMultiAux db2 rest (done ++ [d]) = (dbout, some e) := h
      have hsplit : (done ++ [d]) ++ rest = done ++ d :: rest := by simp
      apply @ih db2 (done ++ [d])
        (by rw [hsplit]; exact hfr) (by rw [hsplit]; exact hnd)
        (httl2.trans httl) ?_ h'
      apply forall2_comp hf2 hinv
      rintro a b c hb hc ⟨hab1, hins⟩ ⟨hn, hfq, huq, hsq, hwfb, hsemb⟩
      obtain ⟨hwfa, hsema, hfa, hua, hsa⟩ :=
        Index.insertOne_ok hwfb (fun k _ => hdfr b hb k) hins
      refine ⟨hab1.trans hn, hfa.trans hfq, hua.trans huq, hsa.trans hsq, hwfa, ?_⟩
      intro k
      have hkc : b.2.docKeys d = c.2.docKeys d := Index.docKeys_congr hfq hsq d
      rw [hsema k, hsemb k, hkc, List.filter_append, List.append_assoc]
      by_cases hq : k ∈ c.2.docKeys d
      · simp [hq]
      · simp [hq]

theorem MemoryDB.insertMultipleDocsInCache_error_restore {db dbout : MemoryDB}
    {docs : List Value} {e : DBError}
    (hwf : DBWF db) (hfr : ∀ d ∈ docs, FreshDoc db d) (hnd : docs.Nodup)
    (h : db.insertMultipleDocsInCache docs = (dbout, some e)) :
    dbout = db := by
  rw [MemoryDB.insertMultipleDocsInCache] at h
  apply insertMultiAux_error_restore hwf (by simpa using hfr)
    (by simpa using hnd) rfl ?_ h
  apply List.forall₂_same.mpr
  intro p hp
  exact ⟨rfl, rfl, rfl, rfl, hwf p hp, fun k => by simp⟩

theorem mem_treeGetAll {t : IdxTree} {d : Value} :
    d ∈ treeGetAll t ↔ ∃ nd ∈ t, d ∈ nd.2 := by
  induction t with
  | nil => simp [treeGetAll]
  | cons p rest ih =>
    rw [treeGetAll] at ih ⊢
    rw [List.foldr_cons, List.mem_append]
    constructor
    · intro h
      rcases h with h | h
      · exact ⟨p, List.mem_cons_self _ _, h⟩
      · obtain ⟨nd, hm, hd⟩ := ih.mp h
        exact ⟨nd, List.mem_cons_of_mem _ hm, hd⟩
    · rintro ⟨nd, hm, hd⟩
      rcases List.mem_cons.mp hm with h | h
      · exact Or.inl (h ▸ hd)
      · exact Or.inr (ih.mpr ⟨nd, h, hd⟩)

theorem treeGetAll_nodup {t : IdxTree} (hwf : TreeWF t) (hic : IdKeyConsistent t) :
    (treeGetAll t).Nodup := by
  induction t with
  | nil => exact List.nodup_nil
  | cons p rest ih =>
    rw [treeGetAll, List.foldr_cons]
    rw [show (List.foldr (fun p acc => p.2 ++ acc) [] rest) = treeGetAll rest from rfl]
    apply List.Nodup.append
    · exact (hwf.2 p (List.mem_cons_self _ _)).2
    · exact ih hwf.tail (fun nd hm => hic nd (List.mem_cons_of_mem _ hm))
    · intro d hd1 hd2
      obtain ⟨nd, hm, hd⟩ := mem_treeGetAll.mp hd2
      have h1 := hic p (List.mem_cons_self _ _) d hd1
      have h2 := hic nd (List.mem_cons_of_mem _ hm) d hd
      have hlt := hwf.head_lt nd hm
      rw [← h1, h2] at hlt
      exact compareThings_lt_ne hlt rfl

theorem assocFind_cons_ne {β : Type} {p : String × β} {l : List (String × β)} {g : String}
    (h : p.1 ≠ g) : assocFind (p :: l) g = assocFind l g := by
  rw [assocFind, assocFind, List.find?_cons_of_neg]
  simp [h]

theorem assocFind_cons_self {β : Type} {p : String × β} {l : List (String × β)} {g : String}
    (h : p.1 = g) : assocFind (p :: l) g = some p.2 := by
  rw [assocFind, List.find?_cons_of_pos]
  simp [h]

theorem assocFind_filter_self {β : Type} (l : List (String × β)) (f : String) :
    assocFind (l.filter (fun p => p.1 ≠ f)) f = none := by
  induction l with
  | nil => rfl
  | cons p rest ih =>
    rw [List.filter_cons]
    by_cases hp : p.1 = f
    · simp only [hp, ne_eq, not_true_eq_false, decide_False, Bool.false_eq_true, if_false]
      exact ih
    · simp only [ne_eq, hp, not_false_eq_true, decide_True, if_true]
      rw [assocFind_cons_ne hp]
      exact ih

theorem assocFind_filter_other {β : Type} (l : List (String × β)) {f g : String}
    (h : g ≠ f) :
    assocFind (l.filter (fun p => p.1 ≠ f)) g = assocFind l g := by
  induction l with
  | nil => rfl
  | cons p rest ih =>
    rw [List.filter_cons]
    by_cases hp : p.1 = f
    · simp only [hp, ne_eq, not_true_eq_false, decide_False, Bool.false_eq_true, if_false]
      rw [ih, assocFind_cons_ne (hp ▸ fun he => h he.symm)]
    · simp only [ne_eq, hp, not_false_eq_true, decide_True, if_true]
      by_cases hg : p.1 = g
      · rw [assocFind_cons_self hg, assocFind_cons_self hg]
      · rw [assocFind_cons_ne hg, assocFind_cons_ne hg]
        exact ih

theorem foldl_step_or {α : Type} (f : α → Bool) (step : Bool → α → Bool)
    (hstep : ∀ b x, step b x = (b || f x)) :
    ∀ (l : List α) (acc : Bool), l.foldl step acc = (acc || l.any f) := by
  intro l
  induction l with
  | nil => intro acc; simp
  | cons x xs ih =>
    intro acc
    rw [List.foldl_cons, hstep, List.any_cons, ih, Bool.or_assoc]

theorem isExpiredFold_eq_expiredSpec (ttl : List (String × Int)) (now : Int) (d : Value) :
    isExpiredFold ttl now d = expiredSpec ttl now d := by
  rw [isExpiredFold, expiredSpec]
  rw [foldl_step_or _ _ ?_ ttl false]
  · rw [Bool.false_or]
  · intro b p
    cases d with
    | vobj fs =>
      simp only []
      cases hg : objGet fs p.1 with
      | none => simp
      | some v =>
        cases v <;> simp only [] <;> try simp
        case vdate t =>
          by_cases hlt : t + p.2 * 1000 < now
          · simp [hlt]
          · simp [hlt]
    | vundef => simp
    | vnull => simp
    | vnum n => simp
    | vstr s => simp
    | vbool b2 => simp
    | vdate t => simp
    | varr l2 => simp

theorem expireSplit_eq (ttl : List (String × Int)) (now : Int) (docs : List Value) :
    expireSplit ttl now docs =
      (docs.filter (fun d => !isExpiredFold ttl now d),
        (docs.filter (fun d => isExpiredFold ttl now d)).map docIdOf) := by
  induction docs with
  | nil => rfl
  | cons d rest ih =>
    rw [expireSplit, ih]
    by_cases h : isExpiredFold ttl now d
    · simp [List.filter_cons, h]
    · simp [List.filter_cons, h]

theorem projActionWalk_some_all {keys : List (String × Int)} :
    ∀ {x : Int}, projActionWalk (some x) keys = true → ∀ p ∈ keys, p.2 = x := by
  induction keys with
  | nil => intro x _ p hp; exact absurd hp (List.not_mem_nil p)
  | cons q rest ih =>
    intro x h p hp
    obtain ⟨k, v⟩ := q
    rw [projActionWalk] at h
    by_cases hvx : v = x
    · subst hvx
      rw [if_neg (by simp)] at h
      rcases List.mem_cons.mp hp with h1 | h1
      · rw [h1]
      · exact ih h p h1
    · rw [if_pos (by simpa using hvx)] at h
      exact Bool.noConfusion h

theorem projActionWalk_none_mixed {keys : List (String × Int)} {p q : String × Int}
    (hp : p ∈ keys) (hq : q ∈ keys) (hne : p.2 ≠ q.2) :
    projActionWalk none keys = false := by
  cases keys with
  | nil => exact absurd hp (List.not_mem_nil p)
  | cons h0 rest =>
    obtain ⟨k0, v0⟩ := h0
    rw [projActionWalk]
    cases hwb : projActionWalk (some v0) rest with
    | false => rfl
    | true =>
      exfalso
      have hall := projActionWalk_some_all hwb
      have hpv : p.2 = v0 := by
        rcases List.mem_cons.mp hp with h1 | h1
        · rw [h1]
        · exact hall p h1
      have hqv : q.2 = v0 := by
        rcases List.mem_cons.mp hq with h1 | h1
        · rw [h1]
        · exact hall q h1
      exact hne (hpv.trans hqv.symm)

theorem execLoop_limit1_nil {q : Value} {cands : List Value}
    (h : cands.filter (fun d => matchQ d q) = []) :
    execLoop q (some 1) none cands 0 0 = [] := by
  induction cands with
  | nil => rfl
  | cons d rest ih =>
    rw [List.filter_cons] at h
    by_cases hm : matchQ d q
    · rw [if_pos (by simpa using hm)] at h
      exact absurd h (by simp)
    · rw [if_neg (by simpa using hm)] at h
      rw [execLoop, if_neg (by simpa using hm)]
      exact ih h

theorem execLoop_limit1_cons {q : Value} {d : Value} {rest cands : List Value}
    (h : cands.filter (fun x => matchQ x q) = d :: rest) :
    execLoop q (some 1) none cands 0 0 = [d] := by
  induction cands with
  | nil => exact absurd h (by simp)
  | cons c cs ih =>
    rw [List.filter_cons] at h
    by_cases hm : matchQ c q
    · rw [if_pos (by simpa using hm)] at h
      have hcd : c = d := by
        have := congrArg List.head? h
        simpa using this
      rw [execLoop, if_pos (by simpa using hm)]
      rw [show skipGuard none 0 = false from rfl]
      rw [show limitReached (some 1) (0 + 1) = true from rfl]
      simp [hcd]
    · rw [if_neg (by simpa using hm)] at h
      rw [execLoop, if_neg (by simpa using hm)]
      exact ih h

/-- C6: a document is expired for the TTL configuration exactly when a
registered field holds a timestamp whose value plus
`expireAfterSeconds * 1000` is strictly below `now` (the source's
validity fold agrees with the spec-side `expiredSpec` on every
document), and `getCandidates` with `dontExpireStaleDocs = false`
passes on exactly the non-expired candidates, in order, while running
the cascaded per-document removes for the expired candidates' ids. -/
theorem C6_getCandidates_expiry (db : MemoryDB) (q : Value) (now : Int) :
    (∀ d, isExpiredFold db.ttlIndexes now d = expiredSpec db.ttlIndexes now d) ∧
    (db.getCandidates q false now).1 =
      (selectCandidates db q).filter (fun d => !expiredSpec db.ttlIndexes now d) ∧
    (db.getCandidates q false now).2 =
      db.expireRemoves (((selectCandidates db q).filter
        (fun d => expiredSpec db.ttlIndexes now d)).map docIdOf) := by
  refine ⟨fun d => isExpiredFold_eq_expiredSpec _ _ _, ?_, ?_⟩
  · rw [MemoryDB.getCandidates]
    simp only [Bool.false_eq_true, if_false, expireSplit_eq]
    apply List.filter_congr
    intro d _
    simp only [isExpiredFold_eq_expiredSpec]
  · rw [MemoryDB.getCandidates]
    simp only [Bool.false_eq_true, if_false, expireSplit_eq]
    congr 1
    apply congrArg (List.map docIdOf)
    apply List.filter_congr
    intro d _
    simp only [isExpiredFold_eq_expiredSpec]

/-- C9: `ensureIndex` on an already-indexed (nonempty) field name
succeeds with no error and returns the store unchanged — the existing
index is not rebuilt or replaced and the TTL registry is untouched. -/
theorem C9_ensureIndex_idempotent {db : MemoryDB} {opts : IndexOptions}
    (hne : opts.fieldName ≠ "")
    (h : (assocFind db.indexes opts.fieldName).isSome = true) :
    db.ensureIndex opts = (db, none) := by
  rw [MemoryDB.ensureIndex, if_neg hne, if_pos h]

/-- Witness: re-declaring the existing `a` index of the two-document
store (even with different options) is a no-op that succeeds. -/
theorem C9_ensureIndex_idempotent_witness :
    updDB.ensureIndex ⟨"a", true, true, some 5⟩ = (updDB, none) :=
  C9_ensureIndex_idempotent (by decide) (by decide)

/-- C4 (counterexample): `removeIndex("_id")` deletes the `_id` index —
the source has no immortality guard — refuting the claim on the
one-document store. -/
theorem C4_id_index_removable :
    assocFind (oneDocDB.removeIndex "_id").indexes "_id" = none ∧
    assocFind oneDocDB.indexes "_id" ≠ none := by
  constructor
  · decide
  · decide

/-- C4 (amended): `removeIndex(f)` unconditionally deletes exactly the
index named `f` — including `_id` itself — leaving every other index
untouched; and while an `_id` index exists whose entries are keyed by
their document's own `_id` (the state the store maintains between
operations), every live document appears exactly once in the
`getAllData` traversal. -/
theorem C4_removeIndex_exact {db : MemoryDB} {f : String} (idIdx : Index)
    (hid : assocFind db.indexes "_id" = some idIdx)
    (hwf : TreeWF idIdx.tree) (hic : IdKeyConsistent idIdx.tree) :
    assocFind (db.removeIndex f).indexes f = none ∧
    (∀ g, g ≠ f → assocFind (db.removeIndex f).indexes g = assocFind db.indexes g) ∧
    db.getAllData.Nodup := by
  refine ⟨?_, ?_, ?_⟩
  · rw [MemoryDB.removeIndex]
    exact assocFind_filter_self _ _
  · intro g hg
    rw [MemoryDB.removeIndex]
    exact assocFind_filter_other _ hg
  · rw [MemoryDB.getAllData, hid]
    exact treeGetAll_nodup hwf hic

/-- Witness for the amended C4 on the one-document store. -/
theorem C4_removeIndex_exact_witness :
    assocFind (oneDocDB.removeIndex "x").indexes "x" = none ∧
    (∀ g, g ≠ "x" →
      assocFind (oneDocDB.removeIndex "x").indexes g = assocFind oneDocDB.indexes g) ∧
    oneDocDB.getAllData.Nodup := by
  refine C4_removeIndex_exact
    ((assocFind oneDocDB.indexes "_id").getD (Index.make "y" false false)) ?_ ?_ ?_
  · decide
  · unfold TreeWF
    decide
  · unfold IdKeyConsistent
    decide

/-- C7: on the three spec documents, the sorted cursor
`find({}).sort({n:1}).skip(1).limit(1)` collects all matches, sorts
them stably by `n` ascending and slices `[skip, skip+limit)`, returning
exactly `[{_id:"3", n:2}]`; the store is unchanged by the read. -/
theorem C7_sort_skip_limit :
    MemoryDB.cursorExec sortDB ⟨.vobj [], some 1, some 1, some [("n", 1)], []⟩ 0
      = (.ok [sortDoc3], sortDB) := by
  decide

/-- C8: a projection mixing an inclusion and an exclusion on non-`_id`
keys fails with *InconsistentProjection*; `_id` is included by default
(`{a:1}` keeps it) and excluded exactly by `_id: 0` (`{a:1, _id:0}`
yields only the `a` path), shown on `{_id:"x", a:5, b:6}`. -/
theorem C8_projection_rules {cands : List Value} {proj : List (String × Int)}
    {k1 k2 : String}
    (hk1 : (k1, 1) ∈ proj) (hk2 : (k2, 0) ∈ proj)
    (h1 : k1 ≠ "_id") (h2 : k2 ≠ "_id") :
    projectDocs proj cands = .error .inconsistentProjection ∧
    projectDocs [("a", 1)] [projDoc] = .ok [.vobj [("a", .vnum 5), ("_id", .vstr "x")]] ∧
    projectDocs [("a", 1), ("_id", 0)] [projDoc] = .ok [.vobj [("a", .vnum 5)]] := by
  refine ⟨?_, by decide, by decide⟩
  have hne : proj.isEmpty = false := by
    cases proj with
    | nil => exact absurd hk1 (List.not_mem_nil _)
    | cons a l => rfl
  have hw : projActionWalk none (proj.filter (fun p => p.1 ≠ "_id")) = false := by
    apply projActionWalk_none_mixed (p := (k1, 1)) (q := (k2, 0))
    · exact List.mem_filter.mpr ⟨hk1, by simpa using h1⟩
    · exact List.mem_filter.mpr ⟨hk2, by simpa using h2⟩
    · exact (by decide : ((1 : Int) ≠ (0 : Int)))
  rw [projectDocs, hne]
  simp only [Bool.false_eq_true, if_false, hw]

/-- Witness: the mixed projection `{a:1, b:0}` is rejected while the
concrete `_id` examples evaluate as stated. -/
theorem C8_projection_rules_witness :
    projectDocs [("a", 1), ("b", 0)] [projDoc] = .error .inconsistentProjection ∧
    projectDocs [("a", 1)] [projDoc] = .ok [.vobj [("a", .vnum 5), ("_id", .vstr "x")]] ∧
    projectDocs [("a", 1), ("_id", 0)] [projDoc] = .ok [.vobj [("a", .vnum 5)]] :=
  @C8_projection_rules [projDoc] [("a", 1), ("b", 0)] "a" "b"
    (by decide) (by decide) (by decide) (by decide)

theorem findOneCore_shape (db : MemoryDB) (q : Value) (now : Int) :
    db.findOneCore q [] now =
      ((match execLoop q (some 1) none (db.getCandidates q false now).1 0 0 with
        | [d] => .ok (deepCopy d)
        | _ => .ok .vnull),
        (db.getCandidates q false now).2) := by
  rcases hgc : db.getCandidates q false now with ⟨cands, db1⟩
  rw [MemoryDB.findOneCore, MemoryDB.cursorExec]
  rw [show (⟨q, some 1, none, none, []⟩ : CursorS).query = q from rfl, hgc]
  simp only []
  rw [show cursorExecOn ⟨q, some 1, none, none, []⟩ cands
      = Except.ok (execLoop q (some 1) none cands 0 0) from rfl]
  cases hel : execLoop q (some 1) none cands 0 0 with
  | nil => rfl
  | cons d0 tl =>
    cases tl with
    | nil => rfl
    | cons d1 tl2 => rfl

/-- C10: a `findOne` whose query matches no candidate succeeds with the
result `null` (`vnull` — not `undefined` and not an error), and when a
document matches under the cursor's internal `limit(1)` the result is a
deep copy of the first matching document, not the stored reference. -/
theorem C10_findOne_null_or_deepCopy {db : MemoryDB} {q : Value} {now : Int}
    {d : Value} {rest : List Value} :
    ((db.getCandidates q false now).1.filter (fun x => matchQ x q) = [] →
      db.findOneCore q [] now = (.ok .vnull, (db.getCandidates q false now).2)) ∧
    ((db.getCandidates q false now).1.filter (fun x => matchQ x q) = d :: rest →
      db.findOneCore q [] now = (.ok (deepCopy d), (db.getCandidates q false now).2)) := by
  constructor
  · intro h
    rw [findOneCore_shape, execLoop_limit1_nil h]
  · intro h
    rw [findOneCore_shape, execLoop_limit1_cons h]

/-- Witness: on the three-document store, `findOne({_id:"2"})` yields a
deep copy of the matching document and `findOne({_id:"9"})` yields
`null`. -/
theorem C10_findOne_witness :
    sortDB.findOneCore (.vobj [("_id", .vstr "2")]) [] 0
        = (.ok (deepCopy sortDoc2),
           (sortDB.getCandidates (.vobj [("_id", .vstr "2")]) false 0).2) ∧
    sortDB.findOneCore (.vobj [("_id", .vstr "9")]) [] 0
        = (.ok .vnull, (sortDB.getCandidates (.vobj [("_id", .vstr "9")]) false 0).2) := by
  constructor
  · exact (@C10_findOne_null_or_deepCopy sortDB (.vobj [("_id", .vstr "2")]) 0
      sortDoc2 []).2 (by decide)
  · exact (@C10_findOne_null_or_deepCopy sortDB (.vobj [("_id", .vstr "9")]) 0
      .vnull []).1 (by decide)

/-- C3 (counterexample): an array element that is itself an array is
projected to `"$null"` — not to itself — so the array key
`[null, [1]]` has ONE distinct element under the projection and the
document is inserted once, under `null` alone. -/
theorem C3_array_projected_to_null :
    projectForUnique (.varr [.vnum 1]) = .vstr "$null" ∧
    uniqProj [.vnull, .varr [.vnum 1]] = [.vnull] ∧
    (arrKeyIdx.insertOne arrKeyDoc).1.tree = [(.vnull, [arrKeyDoc])] := by
  refine ⟨rfl, by decide, by decide⟩

/-- C3 (amended): the type-tagged projection maps null AND arrays to
`"$null"`, tags strings, numbers and booleans, and is the identity only
on the remaining values (objects, timestamps, undefined) — the
source's `projectForUnique` agrees with the amended description
`projectForUniqueAmended` on every value; an array-valued key inserts
the document once under each element distinct BY THIS PROJECTION
(keeping first occurrences), and a non-array key yields the single
entry. -/
theorem C3_projection_and_array_keys (v : Value) (idx : Index) (doc : Value) :
    projectForUnique v = projectForUniqueAmended v ∧
    (idx.keyOf doc = .vundef ∧ idx.sparse → idx.docKeys doc = []) ∧
    (∀ l, idx.keyOf doc = .varr l → ¬(idx.keyOf doc = .vundef ∧ idx.sparse) →
      idx.docKeys doc = uniqProj l) ∧
    (∀ x, idx.keyOf doc = x → (∀ l, x ≠ .varr l) → ¬(x = .vundef ∧ idx.sparse) →
      idx.docKeys doc = [x]) := by
  refine ⟨?_, ?_, ?_, ?_⟩
  · cases v <;> rfl
  · intro h
    rw [Index.docKeys, if_pos h]
  · intro l hl hns
    rw [Index.docKeys, if_neg (by rw [hl] at hns ⊢; exact hns), hl]
  · intro x hx hnarr hns
    rw [Index.docKeys, if_neg (by rw [hx]; exact hns), hx]
    cases x with
    | varr l => exact absurd rfl (hnarr l)
    | vundef => rfl
    | vnull => rfl
    | vnum n => rfl
    | vstr s => rfl
    | vbool b => rfl
    | vdate t => rfl
    | vobj fs => rfl

/-- Witness for the amended C3: the projection equality at an array
value, and the array-keyed document of the counterexample scenario
occupying exactly the deduplicated key set. -/
theorem C3_projection_witness :
    projectForUnique (.varr [.vnum 2]) = projectForUniqueAmended (.varr [.vnum 2]) ∧
    arrKeyIdx.docKeys arrKeyDoc = uniqProj [.vnull, .varr [.vnum 1]] := by
  constructor
  · exact (C3_projection_and_array_keys (.varr [.vnum 2]) arrKeyIdx arrKeyDoc).1
  · exact (C3_projection_and_array_keys (.varr [.vnum 2]) arrKeyIdx arrKeyDoc).2.2.1
      [.vnull, .varr [.vnum 1]] (by decide) (by decide)

/-- C2: `Index.updateMultipleDocs` is the two-phase remove-then-insert
of the source; when the insert phase fails at some position the
committed inserts are removed, every old document is re-inserted, the
original error is propagated, and the index is restored exactly to its
pre-call value (hypotheses: the tree is well-formed, each old document
is resident alone under each of its keys — the unique-index state in
which the insert phase can fail — the old sides are distinct, and the
new documents are fresh and distinct). -/
theorem C2_updateMultipleDocs_failure_restores {idx idx' : Index}
    {prs : List (Value × Value)} {e : DBError}
    (hwf : TreeWF idx.tree)
    (hold : ∀ p ∈ prs, ∀ k ∈ idx.docKeys p.1, semAt idx.tree k = [p.1])
    (holdnd : (prs.map Prod.fst).Nodup)
    (hnewfr : ∀ p ∈ prs, FreshInTree idx.tree p.2)
    (hnewnd : (prs.map Prod.snd).Nodup)
    (h : idx.updateMulti prs = (idx', some e)) :
    idx' = idx ∧ idx'.getAll = idx.getAll := by
  have hr := Index.updateMulti_error_restore hwf hold holdnd
    (fun p hp q => FreshInTree.not_mem_semAt (hnewfr p hp) q) hnewnd h
  exact ⟨hr, by rw [hr]⟩

/-- Witness: updating `{_id:"1", b:1}` to `{_id:"1", b:2}` under the
unique index on `b` holding a second document with `b = 2` fails with
*UniqueViolation* and leaves the index exactly as before. -/
theorem C2_updateMultipleDocs_witness :
    (uniqIdxB.updateMulti [(uniqOldDoc, uniqNewDoc)]).1 = uniqIdxB ∧
    (uniqIdxB.updateMulti [(uniqOldDoc, uniqNewDoc)]).1.getAll = uniqIdxB.getAll := by
  have h : uniqIdxB.updateMulti [(uniqOldDoc, uniqNewDoc)]
      = ((uniqIdxB.updateMulti [(uniqOldDoc, uniqNewDoc)]).1, some .uniqueViolated) := by
    decide
  exact C2_updateMultipleDocs_failure_restores (by unfold TreeWF; decide) (by decide)
    (by decide) (by unfold FreshInTree; decide) (by decide) h

/-- C1 (counterexample): the failed batch UPDATE `{b:1}→{b:2}` under the
unique index on `b` reports *UniqueViolation*, but the rollback leaves
the non-unique `a` index's bucket for `a = 1` in permuted order: not
every index's in-order traversal equals its pre-operation traversal. -/
theorem C1_failed_update_not_exact :
    (updDB.updateIndexes [(updDoc1, updDoc1b)]).2 = some .uniqueViolated ∧
    ¬((updDB.updateIndexes [(updDoc1, updDoc1b)]).1.indexes.map
        (fun p => (p.1, p.2.getAll))
      = updDB.indexes.map (fun p => (p.1, p.2.getAll))) := by
  constructor
  · decide
  · decide

/-- C1 (amended): a failed single-document insert (`addToIndexes`) and
a failed batch insert (`_insertMultipleDocsInCache`) both leave the
store exactly as it was before the operation — the loops roll back the
indexes already updated, resp. the documents already inserted, before
propagating the error (hypotheses: well-formed trees, and fresh,
distinct documents — the state of freshly prepared inserts).  The
failed batch UPDATE of `updateIndexes` is NOT exactly restoring in
general: it can permute a non-unique bucket's order (see the
counterexample theorem). -/
theorem C1_failed_insert_restores_store {db db1 db2 : MemoryDB} {doc : Value}
    {docs : List Value} {e1 e2 : DBError}
    (hwf : DBWF db) (hfr1 : FreshDoc db doc)
    (hfrs : ∀ d ∈ docs, FreshDoc db d) (hnd : docs.Nodup)
    (h1 : db.addToIndexes doc = (db1, some e1))
    (h2 : db.insertMultipleDocsInCache docs = (db2, some e2)) :
    db1 = db ∧ db2 = db := by
  constructor
  · exact MemoryDB.addToIndexes_error_restore hwf
      (fun p hp k => FreshInTree.not_mem_semAt (hfr1 p hp) k) h1
  · exact MemoryDB.insertMultipleDocsInCache_error_restore hwf hfrs hnd h2

/-- Witness: on the two-document store, inserting `{_id:"3", a:2, b:2}`
fails on the unique `b` index and restores the store; batch-inserting
`[{_id:"4", b:9}, {_id:"5", b:2}]` fails at the second document and
restores the store. -/
theorem C1_failed_insert_restores_store_witness :
    (updDB.addToIndexes (.vobj [("_id", .vstr "3"), ("a", .vnum 2), ("b", .vnum 2)])).1
        = updDB ∧
    (updDB.insertMultipleDocsInCache
        [.vobj [("_id", .vstr "4"), ("b", .vnum 9)],
         .vobj [("_id", .vstr "5"), ("b", .vnum 2)]]).1 = updDB := by
  have h1 : updDB.addToIndexes (.vobj [("_id", .vstr "3"), ("a", .vnum 2), ("b", .vnum 2)])
      = ((updDB.addToIndexes
          (.vobj [("_id", .vstr "3"), ("a", .vnum 2), ("b", .vnum 2)])).1,
         some .uniqueViolated) := by decide
  have h2 : updDB.insertMultipleDocsInCache
        [.vobj [("_id", .vstr "4"), ("b", .vnum 9)],
         .vobj [("_id", .vstr "5"), ("b", .vnum 2)]]
      = ((updDB.insertMultipleDocsInCache
          [.vobj [("_id", .vstr "4"), ("b", .vnum 9)],
           .vobj [("_id", .vstr "5"), ("b", .vnum 2)]]).1,
         some .uniqueViolated) := by decide
  exact C1_failed_insert_restores_store
    (by unfold DBWF TreeWF; decide)
    (by unfold FreshDoc FreshInTree; decide)
    (by unfold FreshDoc FreshInTree; decide)
    (by decide) h1 h2

/-- C5 (counterexample): an update with `upsert: true` whose query DOES
match a candidate (so the non-upsert branch runs) reports
`upsert: true` — the option value — not the claimed constant `false`. -/
theorem C5_report_upsert_not_false :
    (oneDocDB.updateCore (.vobj [("_id", .vstr "a")]) (.vobj [("x", .vnum 2)])
        ⟨false, true, false⟩ "zz" 0).2
      = .ok ⟨1, true, .undef⟩ := by
  decide

/-- C5 (amended): every successful `_update` call that takes the
non-upsert branch (the query matches a candidate under the internal
limit-1 cursor, or `upsert` is not set) reports
`{numAffected: mods.length, upsert: options.upsert,
updated: returnUpdatedDocs ? (multi ? newDocs : newDocs[0]) : undefined}`
— with `newDocs` the deep copies of the modified documents — so the
`upsert` field is the option value as destructured from `options`, not
the constant `false`. -/
theorem C5_update_report_nonupsert {db db' : MemoryDB} {q upd : Value}
    {opts : UpdateOpts} {nid : String} {now : Int} {r : UpdateResult}
    (hnup : (opts.upsert
      && !((execLoop q (some 1) none (db.getCandidates q false now).1 0 0).length == 1))
      = false)
    (h : db.updateCore q upd opts nid now = (db', .ok r)) :
    ∃ mods, MemoryDB.updateMods q upd opts.multi
        ((db.getCandidates q false now).2.getCandidates q false now).1 0 = .ok mods ∧
      r = ⟨mods.length, opts.upsert,
        if opts.returnUpdatedDocs then
          (if opts.multi then .many (mods.map (fun p => deepCopy p.2))
           else
             match (mods.map (fun p => deepCopy p.2)).head? with
             | some d0 => .one d0
             | none => .undef)
        else .undef⟩ := by
  rw [MemoryDB.updateCore] at h
  simp only [] at h
  have hcond : ¬((opts.upsert
      && !((execLoop q (some 1) none (db.getCandidates q false now).1 0 0).length == 1))
      = true) := by
    rw [hnup]
    exact Bool.false_ne_true
  rw [if_neg hcond] at h
  rcases hgc2 : (db.getCandidates q false now).2.getCandidates q false now
    with ⟨cands2, dbg⟩
  rw [hgc2] at h
  simp only [] at h
  rcases hmods : MemoryDB.updateMods q upd opts.multi cands2 0 with e | mods
  all_goals rw [hmods] at h
  all_goals simp only [] at h
  · exact absurd (congrArg Prod.snd h) (by simp)
  · refine ⟨mods, ?_, ?_⟩
    · rfl
    · rcases hui : dbg.updateIndexes mods with ⟨dbu, rr⟩
      rw [hui] at h
      cases rr with
      | some e =>
        simp only [] at h
        exact absurd (congrArg Prod.snd h) (by simp)
      | none =>
        simp only [] at h
        by_cases hret : (!opts.returnUpdatedDocs) = true
        · rw [if_pos hret] at h
          have h2 := congrArg Prod.snd h
          simp only [] at h2
          have hr : r = ⟨mods.length, opts.upsert, .undef⟩ := by
            injection h2 with h3
            exact h3.symm
          have hretf : opts.returnUpdatedDocs = false := by
            simpa using hret
          rw [hr, hretf]
          simp
        · rw [if_neg hret] at h
          have hrett : opts.returnUpdatedDocs = true := by
            simpa using hret
          by_cases hm : opts.multi = true
          · rw [if_pos hm] at h
            have h2 := congrArg Prod.snd h
            simp only [] at h2
            have hr : r = ⟨mods.length, opts.upsert,
                .many (mods.map (fun p => deepCopy p.2))⟩ := by
              injection h2 with h3
              exact h3.symm
            rw [hr, hrett, hm]
            simp
          · rw [if_neg hm] at h
            have hmf : opts.multi = false := by
              simpa using hm
            rcases hhd : (mods.map (fun p => deepCopy p.2)).head? with _ | d0
            all_goals rw [hhd] at h
            · have h2 := congrArg Prod.snd h
              simp only [] at h2
              have hr : r = ⟨mods.length, opts.upsert, .undef⟩ := by
                injection h2 with h3
                exact h3.symm
              rw [hr, hrett, hmf, hhd]
              simp
            · have h2 := congrArg Prod.snd h
              simp only [] at h2
              have hr : r = ⟨mods.length, opts.upsert, .one d0⟩ := by
                injection h2 with h3
                exact h3.symm
              rw [hr, hrett, hmf, hhd]
              simp

/-- Witness: the concrete matched update with `upsert: true` and
`returnUpdatedDocs: false` reports `{numAffected: 1, upsert: true,
updated: undefined}` — the full non-upsert-branch report with the
option value in the `upsert` field. -/
theorem C5_update_report_nonupsert_witness :
    ∃ mods, MemoryDB.updateMods (.vobj [("_id", .vstr "a")]) (.vobj [("x", .vnum 2)])
        (⟨false, true, false⟩ : UpdateOpts).multi
        ((oneDocDB.getCandidates (.vobj [("_id", .vstr "a")]) false 0).2.getCandidates
          (.vobj [("_id", .vstr "a")]) false 0).1 0 = .ok mods ∧
      (⟨1, true, .undef⟩ : UpdateResult)
        = ⟨mods.length, (⟨false, true, false⟩ : UpdateOpts).upsert,
          if (⟨false, true, false⟩ : UpdateOpts).returnUpdatedDocs then
            (if (⟨false, true, false⟩ : UpdateOpts).multi then
              .many (mods.map (fun p => deepCopy p.2))
             else
              match (mods.map (fun p => deepCopy p.2)).head? with
              | some d0 => .one d0
              | none => .undef)
          else .undef⟩ :=
  @C5_update_report_nonupsert oneDocDB
    (oneDocDB.updateCore (.vobj [("_id", .vstr "a")]) (.vobj [("x", .vnum 2)])
      ⟨false, true, false⟩ "zz" 0).1
    (.vobj [("_id", .vstr "a")]) (.vobj [("x", .vnum 2)])
    ⟨false, true, false⟩ "zz" 0 ⟨1, true, .undef⟩
    (by decide) (by decide)
